import Mathlib

/-!
Verification of the adversarial path-planning and strategy engine of the
network-defender simulation: a shallow embedding, in Lean, of the graph
search (Pathfinding.findPath), the chokepoint analyzer and topology
generators (TopologyGenerator), the attack strategies (PerfectAI,
EconomicRL), the agent rerouting logic (Enemy), and the Stackelberg phase
controller (LevelManagerStackelberg), together with theorems settling the
stated properties of each component.

Numeric values that are IEEE doubles in the source are modelled as exact
rationals; the unseeded Math.random stream is modelled as an explicit
oracle parameter (a function from a call counter to a rational in [0,1)),
and the random array shuffle used by the sampling BFS is modelled as an
explicit permutation oracle.  Unbounded while loops are modelled with an
explicit fuel parameter; a fuel-exhausted run is distinguished (Option) or
given enough fuel for the loop bound derivable from the state.
-/

namespace PerfectAI

/-- The 7x3 payoff matrix from PerfectAI.calculateOptimalAttack (source
lines 92-100): attacker success probability per enemy type and defender
posture.  An unknown combination, which the source never queries, is 0. -/
def payoff (ty post : String) : ℚ :=
  if ty = "BASIC" then
    (if post = "FW_HEAVY" then 0.2 else if post = "IDS_HEAVY" then 0.7 else if post = "BALANCED" then 0.4 else 0)
  else if ty = "FAST" then
    (if post = "FW_HEAVY" then 0.1 else if post = "IDS_HEAVY" then 0.8 else if post = "BALANCED" then 0.5 else 0)
  else if ty = "TANK" then
    (if post = "FW_HEAVY" then 0.6 else if post = "IDS_HEAVY" then 0.3 else if post = "BALANCED" then 0.4 else 0)
  else if ty = "STEALTH" then
    (if post = "FW_HEAVY" then 0.9 else if post = "IDS_HEAVY" then 0.2 else if post = "BALANCED" then 0.4 else 0)
  else if ty = "ENCRYPTED" then
    (if post = "FW_HEAVY" then 0.8 else if post = "IDS_HEAVY" then 0.4 else if post = "BALANCED" then 0.5 else 0)
  else if ty = "ADAPTIVE" then
    (if post = "FW_HEAVY" then 0.7 else if post = "IDS_HEAVY" then 0.6 else if post = "BALANCED" then 0.8 else 0)
  else if ty = "LEGITIMATE" then
    (if post = "FW_HEAVY" then 1.0 else if post = "IDS_HEAVY" then 1.0 else if post = "BALANCED" then 1.0 else 0)
  else 0

/-- Key order of the payoff matrix object (Object.keys insertion order). -/
def enemyTypeKeys : List String :=
  ["BASIC", "FAST", "TANK", "STEALTH", "ENCRYPTED", "ADAPTIVE", "LEGITIMATE"]

/-- The candidate enemy types: every key except LEGITIMATE (source line 118). -/
def candidates : List String := enemyTypeKeys.filter (fun t => t ≠ "LEGITIMATE")

/-- A committed tower, as read by the posture classification: only the type
string is consulted there. -/
structure TowerSnap where
  type : String
deriving Repr, DecidableEq

/-- Firewall tower count (fCount at source line 106). -/
def fwCount (towers : List TowerSnap) : ℚ :=
  ((towers.filter (fun t => t.type = "Firewall")).length : ℚ)

/-- IDS tower count (iCount at source line 107). -/
def idsCount (towers : List TowerSnap) : ℚ :=
  ((towers.filter (fun t => t.type = "IDS")).length : ℚ)

/-- Defender posture classification (source line 108): firewall count
strictly above 1.5 times the IDS count is FW_HEAVY; otherwise more IDS than
firewalls is IDS_HEAVY; otherwise BALANCED. -/
def posture (towers : List TowerSnap) : String :=
  if fwCount towers > idsCount towers * 1.5 then "FW_HEAVY"
  else if idsCount towers > fwCount towers then "IDS_HEAVY"
  else "BALANCED"

/-- Per-type weight before normalization (source lines 124-130):
payoff times pathWeakness, where pathWeakness is 100 over total path damage
plus one. -/
def weightFor (post : String) (totalDamage : ℚ) (ty : String) : ℚ :=
  payoff ty post * (100 / (totalDamage + 1))

/-- Sum of all candidate weights (totalWeight in the source). -/
def totalWeight (post : String) (totalDamage : ℚ) : ℚ :=
  (candidates.map (weightFor post totalDamage)).sum

/-- The normalized per-path enemy mix (source lines 132-135): each candidate
type mapped to its weight divided by the total weight. -/
def enemyMix (post : String) (totalDamage : ℚ) : List (String × ℚ) :=
  candidates.map (fun ty => (ty, weightFor post totalDamage ty / totalWeight post totalDamage))

/-- Path priority in the per-path strategy (source line 138). -/
def pathPriority (totalDamage : ℚ) : ℚ := if totalDamage < 20 then 5 else 2

/-- Per-path spawn rate (source line 140). -/
def spawnRate (totalDamage : ℚ) : ℚ := max 0.4 (1.2 - totalDamage / 50)

theorem posture_fw3 : posture [⟨"Firewall"⟩, ⟨"Firewall"⟩, ⟨"Firewall"⟩] = "FW_HEAVY" := by
  have hf : fwCount [⟨"Firewall"⟩, ⟨"Firewall"⟩, ⟨"Firewall"⟩] = 3 := by simp [fwCount]
  have hi : idsCount [⟨"Firewall"⟩, ⟨"Firewall"⟩, ⟨"Firewall"⟩] = 0 := by simp [idsCount]
  rw [posture, hf, hi]
  norm_num

theorem posture_mem (towers : List TowerSnap) :
    posture towers = "FW_HEAVY" ∨ posture towers = "IDS_HEAVY" ∨ posture towers = "BALANCED" := by
  unfold posture
  split
  · exact Or.inl rfl
  · split
    · exact Or.inr (Or.inl rfl)
    · exact Or.inr (Or.inr rfl)

theorem totalWeight_pos (post : String) (D : ℚ) (hD : 0 ≤ D)
    (hpost : post = "FW_HEAVY" ∨ post = "IDS_HEAVY" ∨ post = "BALANCED") :
    0 < totalWeight post D := by
  have h1 : (0:ℚ) < D + 1 := by linarith
  have hk : (0:ℚ) < 100 / (D + 1) := by positivity
  rcases hpost with h | h | h <;>
    (subst h
     simp only [totalWeight, candidates, enemyTypeKeys, weightFor, payoff, List.filter,
       List.map, List.sum_cons, List.sum_nil, String.reduceEq, decide_True, decide_False,
       if_true, if_false, ite_true, ite_false, Bool.not_true, Bool.not_false]
     nlinarith)

/-- C3.  EquilibriumAI enemy-mix distribution: for every committed defender
snapshot and every candidate path with nonnegative total damage D, the mix
assigns to each non-legitimate enemy type the weight
payoff(type, posture) times (100 / (D + 1)) normalized over all candidate
types, the mix sums to exactly 1 (hence is within the 1e-6 tolerance), and
with 3 Firewall towers and 0 IDS towers the posture classification resolves
to FW_HEAVY. -/
theorem calculateOptimalAttack_mix (towers : List TowerSnap) (D : ℚ) (hD : 0 ≤ D) :
    (((enemyMix (posture towers) D).map Prod.snd).sum = 1 ∧
      |((enemyMix (posture towers) D).map Prod.snd).sum - 1| ≤ 1 / 1000000) ∧
    (∀ ty ∈ candidates,
      (enemyMix (posture towers) D).lookup ty =
        some (payoff ty (posture towers) * (100 / (D + 1)) /
          ((candidates.map (fun u => payoff u (posture towers) * (100 / (D + 1)))).sum))) ∧
    posture [⟨"Firewall"⟩, ⟨"Firewall"⟩, ⟨"Firewall"⟩] = "FW_HEAVY" := by
  have hpost := posture_mem towers
  have hW : 0 < totalWeight (posture towers) D := totalWeight_pos _ D hD hpost
  have hWne : totalWeight (posture towers) D ≠ 0 := ne_of_gt hW
  have hsum1 : ((enemyMix (posture towers) D).map Prod.snd).sum = 1 := by
    have hsum : ((enemyMix (posture towers) D).map Prod.snd).sum =
        (candidates.map (weightFor (posture towers) D)).sum / totalWeight (posture towers) D := by
      simp only [enemyMix, candidates, enemyTypeKeys, List.filter, List.map,
        List.sum_cons, List.sum_nil, String.reduceEq, decide_True, decide_False, Bool.not_true,
        Bool.not_false, if_true, if_false, ite_true, ite_false]
      ring
    rw [hsum, div_eq_one_iff_eq hWne]
    rfl
  refine ⟨⟨hsum1, ?_⟩, ?_, posture_fw3⟩
  · rw [hsum1]
    norm_num
  · intro ty hty
    fin_cases hty <;>
      simp [enemyMix, candidates, enemyTypeKeys, weightFor, totalWeight, List.lookup]

/-- Witness for C3 at a concrete snapshot and path damage D = 10. -/
theorem calculateOptimalAttack_mix_witness :
    (0:ℚ) ≤ 10 ∧
    ((((enemyMix (posture [⟨"Firewall"⟩]) 10).map Prod.snd).sum = 1 ∧
      |(((enemyMix (posture [⟨"Firewall"⟩]) 10)).map Prod.snd).sum - 1| ≤ 1 / 1000000) ∧
    (∀ ty ∈ candidates,
      (enemyMix (posture [⟨"Firewall"⟩]) 10).lookup ty =
        some (payoff ty (posture [⟨"Firewall"⟩]) * (100 / ((10:ℚ) + 1)) /
          ((candidates.map (fun u => payoff u (posture [⟨"Firewall"⟩]) * (100 / ((10:ℚ) + 1)))).sum))) ∧
    posture [⟨"Firewall"⟩, ⟨"Firewall"⟩, ⟨"Firewall"⟩] = "FW_HEAVY") :=
  ⟨by norm_num, calculateOptimalAttack_mix [⟨"Firewall"⟩] 10 (by norm_num)⟩

end PerfectAI

namespace EconomicRL

/-- The Q-learning update of EconomicRL.updateQTable (source lines 409-411):
newQ is currentQ plus alpha times (reward plus gamma times maxNextQ minus
currentQ). -/
def qUpdate (alpha gamma currentQ maxNextQ reward : ℚ) : ℚ :=
  currentQ + alpha * (reward + gamma * maxNextQ - currentQ)

/-- Repeated application of the update to one (state, action) entry under the
hypotheses of the convergence property: constant reward, next state equal to
the current state, and the updated entry being the maximizing one, so that
maxNextQ is the current value of the entry itself. -/
def qIterate (alpha gamma reward q0 : ℚ) : ℕ → ℚ
  | 0 => q0
  | n + 1 =>
    qUpdate alpha gamma (qIterate alpha gamma reward q0 n) (qIterate alpha gamma reward q0 n) reward

theorem qIterate_closed (alpha gamma reward q0 : ℚ) (hg : gamma ≠ 1) (n : ℕ) :
    qIterate alpha gamma reward q0 n =
      reward / (1 - gamma) + (1 - alpha * (1 - gamma)) ^ n * (q0 - reward / (1 - gamma)) := by
  induction n with
  | zero => simp [qIterate]
  | succ n ih =>
    have h1 : (1:ℚ) - gamma ≠ 0 := by
      intro h
      exact hg (by linarith)
    simp only [qIterate, qUpdate, ih, pow_succ]
    field_simp
    ring

/-- C5.  LearningAI Q-update convergence: with learning rate alpha in (0,1]
and discount gamma in [0,1), fixed state and action, constant reward r, next
state equal to the current state and the updated entry the maximizing one,
each update step shrinks the distance of Q(s,a) to r/(1-gamma) by exactly the
factor 1 - alpha*(1-gamma), that factor lies in [0,1), and the iterates
converge to r/(1-gamma). -/
theorem qIterate_converges (alpha gamma reward q0 : ℚ)
    (ha0 : 0 < alpha) (ha1 : alpha ≤ 1) (hg0 : 0 ≤ gamma) (hg1 : gamma < 1) :
    (∀ n, |qIterate alpha gamma reward q0 (n + 1) - reward / (1 - gamma)| =
        (1 - alpha * (1 - gamma)) * |qIterate alpha gamma reward q0 n - reward / (1 - gamma)|) ∧
    0 ≤ 1 - alpha * (1 - gamma) ∧ 1 - alpha * (1 - gamma) < 1 ∧
    Filter.Tendsto (fun n => ((qIterate alpha gamma reward q0 n : ℚ) : ℝ))
      Filter.atTop (nhds ((reward / (1 - gamma) : ℚ) : ℝ)) := by
  have hgne : gamma ≠ 1 := ne_of_lt hg1
  have hc0 : 0 ≤ 1 - alpha * (1 - gamma) := by nlinarith
  have hc1 : 1 - alpha * (1 - gamma) < 1 := by nlinarith
  refine ⟨?_, hc0, hc1, ?_⟩
  · intro n
    have hstep : qIterate alpha gamma reward q0 (n + 1) - reward / (1 - gamma) =
        (1 - alpha * (1 - gamma)) * (qIterate alpha gamma reward q0 n - reward / (1 - gamma)) := by
      rw [qIterate_closed alpha gamma reward q0 hgne (n + 1),
        qIterate_closed alpha gamma reward q0 hgne n]
      ring
    rw [hstep, abs_mul, abs_of_nonneg hc0]
  · have hform : (fun n => ((qIterate alpha gamma reward q0 n : ℚ) : ℝ)) =
        (fun n => ((reward / (1 - gamma) : ℚ) : ℝ) +
          (((1 - alpha * (1 - gamma) : ℚ) : ℝ)) ^ n * ((q0 - reward / (1 - gamma) : ℚ) : ℝ)) := by
      funext n
      rw [qIterate_closed alpha gamma reward q0 hgne n]
      push_cast
      ring
    rw [hform]
    have habs : |((1 - alpha * (1 - gamma) : ℚ) : ℝ)| < 1 := by
      have h2 : |(1 - alpha * (1 - gamma) : ℚ)| < 1 := by
        rw [abs_lt]
        constructor <;> nlinarith
      exact_mod_cast h2
    have hpow := tendsto_pow_atTop_nhds_zero_of_abs_lt_one habs
    have := (hpow.mul_const ((q0 - reward / (1 - gamma) : ℚ) : ℝ)).const_add
      ((reward / (1 - gamma) : ℚ) : ℝ)
    simpa using this

/-- Witness for C5 at alpha = 1/2, gamma = 1/2, reward = 1, q0 = 0. -/
theorem qIterate_converges_witness :
    (0:ℚ) < 1/2 ∧ (1:ℚ)/2 ≤ 1 ∧ (0:ℚ) ≤ 1/2 ∧ (1:ℚ)/2 < 1 ∧
    ((∀ n, |qIterate (1/2) (1/2) 1 0 (n + 1) - 1 / (1 - 1/2)| =
        (1 - (1/2) * (1 - 1/2)) * |qIterate (1/2) (1/2) 1 0 n - 1 / (1 - 1/2)|) ∧
      0 ≤ 1 - (1/2 : ℚ) * (1 - 1/2) ∧ 1 - (1/2 : ℚ) * (1 - 1/2) < 1 ∧
      Filter.Tendsto (fun n => ((qIterate (1/2) (1/2) 1 0 n : ℚ) : ℝ))
        Filter.atTop (nhds ((1 / (1 - 1/2) : ℚ) : ℝ))) :=
  ⟨by norm_num, by norm_num, by norm_num, by norm_num,
    qIterate_converges (1/2) (1/2) 1 0 (by norm_num) (by norm_num) (by norm_num) (by norm_num)⟩

end EconomicRL

namespace LevelManagerStackelberg

/-- Phase names of the Stackelberg level manager. -/
inductive Phase
  | commitment
  | training
  | battle
  | scoring
deriving DecidableEq, Repr

/-- Phase durations in seconds, from the level 3 configuration object
(commitment 30, training 5, battle 30). -/
structure PhasesCfg where
  commitment : ℚ
  training : ℚ
  battle : ℚ
deriving Repr, DecidableEq

/-- The level 3 configuration values. -/
def level3Phases : PhasesCfg := ⟨30, 5, 30⟩

/-- Delay in milliseconds of the deferred PerfectAI analysis scheduled by
startTrainingPhase (source line 144: setTimeout with 3000). -/
def analysisDelay : ℚ := 3000

/-- The phase-relevant state of LevelManagerStackelberg.  phaseTimer is in
milliseconds; aiAnalysis records whether the deferred analysis result has
been stored; pendingElapsed is the wall-clock time in milliseconds since the
deferred computation was scheduled, or none when no deferred computation is
outstanding. -/
structure PState where
  currentPhase : Phase
  phaseTimer : ℚ
  battleActive : Bool
  aiAnalysis : Bool
  pendingElapsed : Option ℚ
deriving DecidableEq, Repr

/-- Source lines 83-90: duration of the current phase in seconds. -/
def getPhaseDuration (cfg : PhasesCfg) (s : PState) : ℚ :=
  match s.currentPhase with
  | .commitment => cfg.commitment
  | .training => cfg.training
  | .battle => cfg.battle
  | .scoring => 0

/-- Source lines 128-151: enter training, reset the timer, and schedule the
deferred analysis. -/
def startTrainingPhase (s : PState) : PState :=
  { s with currentPhase := .training, phaseTimer := 0, pendingElapsed := some 0 }

/-- Source lines 156-168: enter battle, reset the timer, set battleActive. -/
def startBattlePhase (s : PState) : PState :=
  { s with currentPhase := .battle, phaseTimer := 0, battleActive := true }

/-- Source lines 173-175: enter scoring and clear battleActive. -/
def startScoringPhase (s : PState) : PState :=
  { s with currentPhase := .scoring, battleActive := false }

/-- Source lines 95-107: phase progression switch. -/
def advancePhase (s : PState) : PState :=
  match s.currentPhase with
  | .commitment => startTrainingPhase s
  | .training => startBattlePhase s
  | .battle => startScoringPhase s
  | .scoring => s

/-- Source lines 60-78: accumulate the tick into the phase timer and advance
the phase when the remaining whole seconds reach zero. -/
def updatePhase (cfg : PhasesCfg) (dt : ℚ) (s : PState) : PState :=
  let s1 : PState := { s with phaseTimer := s.phaseTimer + dt }
  let elapsed : ℤ := ⌊s1.phaseTimer / 1000⌋
  let remaining : ℚ := getPhaseDuration cfg s1 - (elapsed : ℚ)
  if remaining ≤ 0 then advancePhase s1 else s1

/-- The deferred setTimeout callback of startTrainingPhase: it becomes due
once the wall-clock time since scheduling reaches analysisDelay, and then
stores the analysis result.  The host event loop runs a due callback before
the next frame handler. -/
def fireDeferred (dt : ℚ) (s : PState) : PState :=
  match s.pendingElapsed with
  | none => s
  | some e =>
    if analysisDelay ≤ e + dt then
      { s with aiAnalysis := true, pendingElapsed := none }
    else
      { s with pendingElapsed := some (e + dt) }

/-- One host tick of length dt milliseconds: any due deferred callback runs
first, then updatePhase is invoked with the tick delta (PlayingState update
loop). -/
def tick (cfg : PhasesCfg) (dt : ℚ) (s : PState) : PState :=
  updatePhase cfg dt (fireDeferred dt s)

/-- A whole run: fold the ticks over a starting state. -/
def run (cfg : PhasesCfg) (dts : List ℚ) (s : PState) : PState :=
  dts.foldl (fun s dt => tick cfg dt s) s

/-- The constructor state (source lines 31-44): commitment phase, zero
timer, battle inactive, no analysis, nothing scheduled. -/
def initial : PState :=
  { currentPhase := .commitment, phaseTimer := 0, battleActive := false,
    aiAnalysis := false, pendingElapsed := none }

/-- Source lines 50-55: spawning is refused outside an active battle phase;
base stands for the decision of the base-class spawn check. -/
def shouldSpawnEnemy (s : PState) (base : Bool) : Bool :=
  if s.currentPhase ≠ Phase.battle ∨ s.battleActive = false then false else base

/-- The inductive invariant of the phase system. -/
structure Inv (s : PState) : Prop where
  training_sync : s.currentPhase = Phase.training →
    s.pendingElapsed = some s.phaseTimer ∨ (s.pendingElapsed = none ∧ s.aiAnalysis = true)
  battle_analysis : s.currentPhase = Phase.battle ∨ s.currentPhase = Phase.scoring →
    s.aiAnalysis = true
  pending_training : s.pendingElapsed ≠ none → s.currentPhase = Phase.training

theorem floor_ge_of_le {x : ℚ} {d : ℚ} (h : d - ((⌊x / 1000⌋ : ℤ) : ℚ) ≤ 0) :
    1000 * d ≤ x := by
  have h1 : d ≤ ((⌊x / 1000⌋ : ℤ) : ℚ) := by linarith
  have h2 : ((⌊x / 1000⌋ : ℤ) : ℚ) ≤ x / 1000 := Int.floor_le _
  have h3 : d ≤ x / 1000 := le_trans h1 h2
  calc 1000 * d ≤ 1000 * (x / 1000) := by linarith
    _ = x := by ring

theorem tick_inv (cfg : PhasesCfg) (hcfg : analysisDelay ≤ 1000 * cfg.training)
    (dt : ℚ) (s : PState) (hs : Inv s) : Inv (tick cfg dt s) := by
  obtain ⟨ph, tm, ba, an, pe⟩ := s
  obtain ⟨h1, h2, h3⟩ := hs
  simp only at h1 h2 h3
  cases pe with
  | none =>
    cases ph with
    | commitment =>
      unfold tick fireDeferred updatePhase advancePhase getPhaseDuration startTrainingPhase
      simp only
      split
      · exact ⟨fun _ => Or.inl rfl, fun h => by cases h <;> simp_all, fun _ => rfl⟩
      · exact ⟨fun h => by simp_all, fun h => by cases h <;> simp_all, fun h => by simp_all⟩
    | training =>
      have han : an = true := (h1 rfl).elim (fun h => by simp_all) (fun h => h.2)
      subst han
      unfold tick fireDeferred updatePhase advancePhase getPhaseDuration startBattlePhase
      simp only
      split
      · exact ⟨fun h => by simp_all, fun _ => rfl, fun h => by simp_all⟩
      · exact ⟨fun _ => Or.inr ⟨rfl, rfl⟩, fun h => by cases h <;> simp_all, fun h => by simp_all⟩
    | battle =>
      have han : an = true := h2 (Or.inl rfl)
      subst han
      unfold tick fireDeferred updatePhase advancePhase getPhaseDuration startScoringPhase
      simp only
      split
      · exact ⟨fun h => by simp_all, fun _ => rfl, fun h => by simp_all⟩
      · exact ⟨fun h => by simp_all, fun _ => rfl, fun h => by simp_all⟩
    | scoring =>
      have han : an = true := h2 (Or.inr rfl)
      subst han
      unfold tick fireDeferred updatePhase advancePhase getPhaseDuration
      simp only
      split
      · exact ⟨fun h => by simp_all, fun _ => rfl, fun h => by simp_all⟩
      · exact ⟨fun h => by simp_all, fun _ => rfl, fun h => by simp_all⟩
  | some e =>
    have hph : ph = Phase.training := h3 (by simp)
    subst hph
    have he : e = tm := (h1 rfl).elim (fun h => by simpa using h) (fun h => by simp_all)
    subst he
    unfold tick fireDeferred updatePhase advancePhase getPhaseDuration startBattlePhase
    simp only
    by_cases hdue : analysisDelay ≤ e + dt
    · rw [if_pos hdue]
      simp only
      split
      · exact ⟨fun h => by simp_all, fun _ => rfl, fun h => by simp_all⟩
      · exact ⟨fun _ => Or.inr ⟨rfl, rfl⟩, fun h => by cases h <;> simp_all, fun h => by simp_all⟩
    · rw [if_neg hdue]
      simp only
      split
      · rename_i hexp
        exfalso
        have hx : 1000 * cfg.training ≤ e + dt := floor_ge_of_le hexp
        exact hdue (le_trans hcfg hx)
      · exact ⟨fun _ => Or.inl rfl, fun h => by cases h <;> simp_all, fun _ => rfl⟩

theorem run_inv (cfg : PhasesCfg) (hcfg : analysisDelay ≤ 1000 * cfg.training)
    (dts : List ℚ) (s : PState) (hs : Inv s) : Inv (run cfg dts s) := by
  induction dts generalizing s with
  | nil => exact hs
  | cons dt dts ih => exact ih _ (tick_inv cfg hcfg dt s hs)

/-- C1.  PhaseController ordering: with the deferred-analysis latency no
larger than the training-phase duration (3000 ms versus 5 s in the level 3
configuration), after any sequence of host ticks from the initial state the
battle phase is only ever entered with the deferred EquilibriumAI analysis
already stored, and shouldSpawnEnemy never permits a spawn before the
analysis result is available. -/
theorem battle_waits_for_analysis (cfg : PhasesCfg)
    (hcfg : analysisDelay ≤ 1000 * cfg.training) (dts : List ℚ) (base : Bool) :
    ((run cfg dts initial).currentPhase = Phase.battle →
      (run cfg dts initial).aiAnalysis = true) ∧
    (shouldSpawnEnemy (run cfg dts initial) base = true →
      (run cfg dts initial).aiAnalysis = true) := by
  have hinv : Inv (run cfg dts initial) := by
    refine run_inv cfg hcfg dts initial ?_
    refine ⟨fun h => by simp [initial] at h, fun h => ?_, fun h => by simp [initial] at h⟩
    rcases h with h | h <;> simp [initial] at h
  constructor
  · intro hb
    exact hinv.battle_analysis (Or.inl hb)
  · intro hsp
    unfold shouldSpawnEnemy at hsp
    by_cases hb : (run cfg dts initial).currentPhase = Phase.battle
    · exact hinv.battle_analysis (Or.inl hb)
    · simp [hb] at hsp

/-- Witness for C1: the level 3 configuration with a run of three 2-second
ticks, spawning query with base decision true. -/
theorem battle_waits_for_analysis_witness :
    analysisDelay ≤ 1000 * level3Phases.training ∧
    (((run level3Phases [2000, 2000, 2000] initial).currentPhase = Phase.battle →
      (run level3Phases [2000, 2000, 2000] initial).aiAnalysis = true) ∧
    (shouldSpawnEnemy (run level3Phases [2000, 2000, 2000] initial) true = true →
      (run level3Phases [2000, 2000, 2000] initial).aiAnalysis = true)) :=
  ⟨by norm_num [analysisDelay, level3Phases],
    battle_waits_for_analysis level3Phases
      (by norm_num [analysisDelay, level3Phases]) [2000, 2000, 2000] true⟩

end LevelManagerStackelberg

namespace Pathfinding

/-- A node position, as consumed by the Euclidean cost and heuristic.  The
source stores IEEE doubles; coordinates are modelled as rationals. -/
structure Point where
  x : ℚ
  y : ℚ
deriving DecidableEq, Repr

/-- A distance function on points.  The source uses the Euclidean metric
(Math.hypot); since its values are irrational, the development is stated for
an arbitrary nonnegative distance oracle, which covers the Euclidean one. -/
abbrev Dist := Point → Point → ℚ

/-- One directed push of buildGraph (graph.get(from).push(to)). -/
def addEdgeDir (g : ℕ → List ℕ) (a b : ℕ) : ℕ → List ℕ :=
  fun i => if i = a then g i ++ [b] else g i

/-- Adjacency lists built from the edge list, both directions per edge
(source lines 400-413).  A node with no entry reads as the empty list, as
does the JS fallback (graph.get(current) or []). -/
def buildGraph (edges : List (ℕ × ℕ)) : ℕ → List ℕ :=
  edges.foldl (fun g e => addEdgeDir (addEdgeDir g e.1 e.2) e.2 e.1) (fun _ => [])

/-- Position lookup; the algorithms only consult indices below the node
count, where getD agrees with the JS array access. -/
def nodeAt (nodes : List Point) (i : ℕ) : Point := nodes.getD i ⟨0, 0⟩

/-- Cost of traversing one edge, before the optional jitter. -/
def edgeCost (d : Dist) (nodes : List Point) (a b : ℕ) : ℚ :=
  d (nodeAt nodes a) (nodeAt nodes b)

/-- The A-star working state: open set in JS Set insertion order, the
cameFrom map, g and f score maps with Infinity as the top element, and the
index into the jitter oracle stream. -/
structure AState where
  openL : List ℕ
  cameFrom : ℕ → Option ℕ
  gScore : ℕ → WithTop ℚ
  fScore : ℕ → WithTop ℚ
  rngIdx : ℕ

/-- Selection of the open node with the lowest f score (source lines
352-361): iterate in insertion order, replace only on strictly smaller f. -/
def selectCurrent (fS : ℕ → WithTop ℚ) (openL : List ℕ) : Option ℕ :=
  (openL.foldl
    (fun best node => if fS node < best.2 then (some node, fS node) else best)
    ((none : Option ℕ), (⊤ : WithTop ℚ))).1

/-- JS Set.add: append only when absent. -/
def pushUnique (l : List ℕ) (v : ℕ) : List ℕ := if v ∈ l then l else l ++ [v]

/-- Relaxation of one neighbor of the current node (source lines 372-390):
update cameFrom, gScore, fScore and re-open the neighbor when the tentative
score strictly improves.  One jitter index is consumed per examined
neighbor. -/
def relaxNeighbor (cost : ℕ → ℕ → ℕ → ℚ) (heur : ℕ → ℚ) (current : ℕ)
    (st : AState) (nb : ℕ) : AState :=
  let c : ℚ := cost st.rngIdx current nb
  let tentative : WithTop ℚ := st.gScore current + (c : WithTop ℚ)
  if tentative < st.gScore nb then
    { openL := pushUnique st.openL nb,
      cameFrom := fun v => if v = nb then some current else st.cameFrom v,
      gScore := fun v => if v = nb then tentative else st.gScore v,
      fScore := fun v => if v = nb then tentative + ((heur nb : ℚ) : WithTop ℚ) else st.fScore v,
      rngIdx := st.rngIdx + 1 }
  else { st with rngIdx := st.rngIdx + 1 }

/-- Path reconstruction (source lines 418-425), root first.  The JS loop is
unbounded; the fuel passed by findPath is the node count, which the
development shows is always sufficient. -/
def reconstructPath (cf : ℕ → Option ℕ) : ℕ → ℕ → List ℕ
  | 0, current => [current]
  | fuel + 1, current =>
    match cf current with
    | none => [current]
    | some p => reconstructPath cf fuel p ++ [current]

/-- The A-star main loop (source lines 351-391): none is fuel exhaustion,
some [] is open-set exhaustion (no path), some p is a reconstructed path. -/
def findPathLoop (cost : ℕ → ℕ → ℕ → ℚ) (adj : ℕ → List ℕ) (heur : ℕ → ℚ)
    (goal reconFuel : ℕ) : ℕ → AState → Option (List ℕ)
  | 0, _ => none
  | fuel + 1, st =>
    match st.openL with
    | [] => some []
    | _ :: _ =>
      match selectCurrent st.fScore st.openL with
      | none => findPathLoop cost adj heur goal reconFuel fuel st
      | some current =>
        if current = goal then some (reconstructPath st.cameFrom reconFuel current)
        else
          let st1 : AState := { st with openL := st.openL.erase current }
          let st2 : AState := (adj current).foldl (relaxNeighbor cost heur current) st1
          findPathLoop cost adj heur goal reconFuel fuel st2

/-- The initial A-star state (source lines 338-349). -/
def initState (heur : ℕ → ℚ) (start : ℕ) : AState :=
  { openL := [start],
    cameFrom := fun _ => none,
    gScore := fun v => if v = start then (0 : WithTop ℚ) else ⊤,
    fScore := fun v => if v = start then ((heur start : ℚ) : WithTop ℚ) else ⊤,
    rngIdx := 0 }

/-- Pathfinding.findPath (source lines 331-395).  The jitter oracle models
the Math.random stream of the randomize branch: examined neighbor number k
has its cost multiplied by 1 + jitter k, where the source draws
jitter k in (-0.2, 0.2). -/
def findPath (d : Dist) (nodes : List Point) (edges : List (ℕ × ℕ)) (start goal : ℕ)
    (randomize : Bool) (jitter : ℕ → ℚ) (fuel : ℕ) : Option (List ℕ) :=
  if start = goal then some [start]
  else
    findPathLoop
      (fun k a b => edgeCost d nodes a b * (if randomize then 1 + jitter k else 1))
      (buildGraph edges)
      (fun v => d (nodeAt nodes v) (nodeAt nodes goal))
      goal nodes.length fuel
      (initState (fun v => d (nodeAt nodes v) (nodeAt nodes goal)) start)

/-- Two node ids are connected by an edge of the graph (either way round:
traversal is bidirectional). -/
def Adjacent (edges : List (ℕ × ℕ)) (a b : ℕ) : Prop :=
  (a, b) ∈ edges ∨ (b, a) ∈ edges

instance (edges : List (ℕ × ℕ)) (a b : ℕ) : Decidable (Adjacent edges a b) := by
  unfold Adjacent
  infer_instance

/-- Every edge endpoint indexes an existing node (the graph well-formedness
invariant of the data model). -/
def ValidEdges (edges : List (ℕ × ℕ)) (n : ℕ) : Prop :=
  ∀ e ∈ edges, e.1 < n ∧ e.2 < n

/-- A route exists between two nodes along graph edges. -/
def Reachable (edges : List (ℕ × ℕ)) (a b : ℕ) : Prop :=
  Relation.ReflTransGen (Adjacent edges) a b

theorem mem_addEdgeDir {g : ℕ → List ℕ} {x y a b : ℕ} :
    b ∈ addEdgeDir g x y a ↔ b ∈ g a ∨ (a = x ∧ b = y) := by
  unfold addEdgeDir
  by_cases h : a = x <;> simp [h]

theorem mem_buildGraph {edges : List (ℕ × ℕ)} {a b : ℕ} :
    b ∈ buildGraph edges a ↔ Adjacent edges a b := by
  suffices H : ∀ (g : ℕ → List ℕ),
      b ∈ (edges.foldl (fun g e => addEdgeDir (addEdgeDir g e.1 e.2) e.2 e.1) g) a ↔
        b ∈ g a ∨ Adjacent edges a b by
    have := H (fun _ => [])
    simpa [buildGraph] using this
  induction edges with
  | nil => intro g; simp [Adjacent]
  | cons e es ih =>
    intro g
    rw [List.foldl_cons, ih]
    rw [mem_addEdgeDir, mem_addEdgeDir]
    constructor
    · rintro (((h | h) | h) | h)
      · exact Or.inl h
      · exact Or.inr (Or.inl (by rcases h with ⟨rfl, rfl⟩; simp [Prod.ext_iff]))
      · exact Or.inr (Or.inr (by rcases h with ⟨rfl, rfl⟩; simp [Prod.ext_iff]))
      · rcases h with h | h
        · exact Or.inr (Or.inl (List.mem_cons_of_mem _ h))
        · exact Or.inr (Or.inr (List.mem_cons_of_mem _ h))
    · rintro (h | h | h)
      · exact Or.inl (Or.inl (Or.inl h))
      · rcases List.mem_cons.1 h with h | h
        · exact Or.inl (Or.inl (Or.inr ⟨congrArg Prod.fst h.symm ▸ rfl, by
            have h1 := congrArg Prod.fst h
            have h2 := congrArg Prod.snd h
            simp at h1 h2
            simp [h2]⟩))
        · exact Or.inr (Or.inl h)
      · rcases List.mem_cons.1 h with h | h
        · refine Or.inl (Or.inr ⟨?_, ?_⟩)
          · have h2 := congrArg Prod.snd h
            simp at h2
            simp [h2]
          · have h1 := congrArg Prod.fst h
            simp at h1
            simp [h1]
        · exact Or.inr (Or.inr h)

theorem mem_buildGraph_lt {edges : List (ℕ × ℕ)} {n a b : ℕ} (hv : ValidEdges edges n)
    (h : b ∈ buildGraph edges a) : a < n ∧ b < n := by
  rw [mem_buildGraph] at h
  rcases h with h | h
  · have := hv _ h
    exact ⟨this.1, this.2⟩
  · have := hv _ h
    exact ⟨this.2, this.1⟩

theorem selectCurrent_mem {fS : ℕ → WithTop ℚ} {openL : List ℕ} {c : ℕ}
    (h : selectCurrent fS openL = some c) : c ∈ openL := by
  unfold selectCurrent at h
  suffices H : ∀ (acc : Option ℕ × WithTop ℚ),
      (acc.1 = some c → c ∈ openL) →
      ((openL.foldl (fun best node => if fS node < best.2 then (some node, fS node) else best)
        acc).1 = some c → c ∈ openL) by
    exact H (none, ⊤) (by simp) h
  have step : ∀ (l : List ℕ), (∀ x ∈ l, x ∈ openL) →
      ∀ (acc : Option ℕ × WithTop ℚ), (acc.1 = some c → c ∈ openL) →
      ((l.foldl (fun best node => if fS node < best.2 then (some node, fS node) else best)
        acc).1 = some c → c ∈ openL) := by
    intro l
    induction l with
    | nil => intro _ acc hacc h; exact hacc h
    | cons x xs ih =>
      intro hsub acc hacc
      rw [List.foldl_cons]
      refine ih (fun y hy => hsub y (List.mem_cons_of_mem _ hy)) _ ?_
      by_cases hx : fS x < acc.2
      · rw [if_pos hx]
        intro h1
        simp at h1
        rw [← h1]
        exact hsub x (List.mem_cons_self x xs)
      · rw [if_neg hx]
        exact hacc
  intro acc
  exact step openL (fun x hx => hx) acc

/-- The cameFrom chain from a node reaches the start node. -/
inductive Rooted (cf : ℕ → Option ℕ) (s : ℕ) : ℕ → Prop
  | base : Rooted cf s s
  | step {v p : ℕ} : cf v = some p → Rooted cf s p → Rooted cf s v

/-- The first node is on the cameFrom parent chain of the second. -/
inductive AncestorOf (cf : ℕ → Option ℕ) (a : ℕ) : ℕ → Prop
  | refl : AncestorOf cf a a
  | step {v p : ℕ} : cf v = some p → AncestorOf cf a p → AncestorOf cf a v

theorem chain_no_parent_mem {cf : ℕ → Option ℕ} {s v p : ℕ} {l : List ℕ}
    (hs : cf s = none) (hchain : List.Chain' (fun a b => cf b = some a) l)
    (hhead : l.head? = some s) (hlast : l.getLast? = some p) (hnd : l.Nodup)
    (hcf : cf v = some p) : v ∉ l := by
  intro hv
  obtain ⟨l1, l2, rfl⟩ := List.append_of_mem hv
  cases l1 with
  | nil =>
    have hvs : v = s := by simpa using hhead
    rw [hvs, hs] at hcf
    cases hcf
  | cons a l1t =>
    have hsplit := List.chain'_append.1 hchain
    have hne : (a :: l1t : List ℕ) ≠ [] := by simp
    have hlast1 : (a :: l1t).getLast? = some ((a :: l1t).getLast hne) :=
      List.getLast?_eq_getLast _ hne
    have hj : cf v = some ((a :: l1t).getLast hne) := by
      refine hsplit.2.2 _ ?_ v ?_
      · rw [hlast1]; rfl
      · rfl
    have hpl : (a :: l1t).getLast hne = p := by
      rw [hj] at hcf
      exact Option.some_injective _ hcf
    have hp1 : p ∈ a :: l1t := hpl ▸ List.getLast_mem hne
    have hp2 : p ∈ v :: l2 := by
      have h2ne : (v :: l2 : List ℕ) ≠ [] := by simp
      have : ((a :: l1t) ++ v :: l2).getLast? = (v :: l2).getLast? :=
        List.getLast?_append_of_ne_nil (a :: l1t) h2ne
      rw [this] at hlast
      obtain ⟨hh, hx⟩ := List.mem_getLast?_eq_getLast (Option.mem_def.2 hlast)
      rw [hx]
      exact List.getLast_mem hh
    have hdisj := (List.nodup_append.1 hnd).2.2
    exact hdisj hp1 hp2

theorem rooted_chain {cf : ℕ → Option ℕ} {s : ℕ} (hs : cf s = none) {v : ℕ}
    (h : Rooted cf s v) :
    ∃ l : List ℕ, l ≠ [] ∧ l.head? = some s ∧ l.getLast? = some v ∧
      List.Chain' (fun a b => cf b = some a) l ∧ l.Nodup ∧
      (∀ x ∈ l, x = s ∨ ∃ y, cf x = some y) ∧
      (∀ fuel, l.length ≤ fuel + 1 → reconstructPath cf fuel v = l) := by
  induction h with
  | base =>
    refine ⟨[s], by simp, rfl, rfl, List.chain'_singleton s, List.nodup_singleton s,
      by simp, ?_⟩
    intro fuel _
    cases fuel with
    | zero => rfl
    | succ fuel => simp [reconstructPath, hs]
  | step hcf hr ih =>
    rename_i v p
    obtain ⟨lp, hne, hhead, hlast, hchain, hnd, hmem, hrec⟩ := ih
    have hvnot : v ∉ lp := chain_no_parent_mem hs hchain hhead hlast hnd hcf
    refine ⟨lp ++ [v], by simp, ?_, ?_, ?_, ?_, ?_, ?_⟩
    · rw [List.head?_append_of_ne_nil _ hne]
      exact hhead
    · exact List.getLast?_concat _
    · rw [List.chain'_append]
      refine ⟨hchain, List.chain'_singleton v, ?_⟩
      intro x hx y hy
      have hx1 : p = x := by
        rw [hlast] at hx
        simpa using hx
      have hy1 : v = y := by simpa using hy
      rw [← hx1, ← hy1]
      exact hcf
    · rw [List.nodup_append]
      refine ⟨hnd, List.nodup_singleton v, ?_⟩
      intro x hx hx2
      have : x = v := by simpa using hx2
      rw [this] at hx
      exact hvnot hx
    · intro x hx
      rcases List.mem_append.1 hx with hx | hx
      · exact hmem x hx
      · have : x = v := by simpa using hx
        exact Or.inr ⟨p, this ▸ hcf⟩
    · intro fuel hlen
      have hlp : 1 ≤ lp.length := List.length_pos.2 hne
      rw [List.length_append, List.length_singleton] at hlen
      cases fuel with
      | zero => omega
      | succ fuel =>
        have : reconstructPath cf (fuel + 1) v = reconstructPath cf fuel p ++ [v] := by
          simp [reconstructPath, hcf]
        rw [this, hrec fuel (by omega)]

theorem length_le_of_nodup_lt {l : List ℕ} {n : ℕ} (hnd : l.Nodup)
    (hlt : ∀ x ∈ l, x < n) : l.length ≤ n := by
  classical
  have hcard : l.toFinset.card = l.length := List.toFinset_card_of_nodup hnd
  have hsub : l.toFinset ⊆ Finset.range n := by
    intro x hx
    rw [List.mem_toFinset] at hx
    exact Finset.mem_range.2 (hlt x hx)
  have := Finset.card_le_card hsub
  rw [hcard, Finset.card_range] at this
  exact this

theorem ancestorOf_mono {cf : ℕ → Option ℕ} {g : ℕ → WithTop ℚ}
    (hmono : ∀ v p, cf v = some p → g p ≤ g v) {a v : ℕ}
    (h : AncestorOf cf a v) : g a ≤ g v := by
  induction h with
  | refl => exact le_refl _
  | step hcf _ ih => exact le_trans ih (hmono _ _ hcf)

theorem rooted_update_of_not_anc {cf : ℕ → Option ℕ} {s u c : ℕ}
    {w : ℕ} (hw : Rooted cf s w) (hnanc : ¬ AncestorOf cf u w) :
    Rooted (fun v => if v = u then some c else cf v) s w := by
  induction hw with
  | base => exact Rooted.base
  | step hcf hr ih =>
    rename_i v p
    have hvu : v ≠ u := by
      intro h
      exact hnanc (h ▸ AncestorOf.refl)
    have hnp : ¬ AncestorOf cf u p := by
      intro h
      exact hnanc (AncestorOf.step hcf h)
    exact Rooted.step (by simp [hvu, hcf]) (ih hnp)

theorem rooted_update {cf : ℕ → Option ℕ} {s u c : ℕ}
    (hc : Rooted (fun v => if v = u then some c else cf v) s c)
    {w : ℕ} (hw : Rooted cf s w) :
    Rooted (fun v => if v = u then some c else cf v) s w := by
  induction hw with
  | base => exact Rooted.base
  | step hcf hr ih =>
    rename_i v p
    by_cases hvu : v = u
    · exact Rooted.step (by simp [hvu]) hc
    · exact Rooted.step (by simp [hvu, hcf]) ih

/-- The inductive invariant of the A-star loop.  The f scores play no role
in any conclusion (they only steer which node is popped), so they are
unconstrained. -/
structure AInv (adj : ℕ → List ℕ) (n s goal : ℕ) (st : AState) : Prop where
  open_lt : ∀ v ∈ st.openL, v < n
  open_fin : ∀ v ∈ st.openL, st.gScore v < ⊤
  g_nonneg : ∀ v, 0 ≤ st.gScore v
  g_start : st.gScore s = 0
  cf_start : st.cameFrom s = none
  cf_lt : ∀ v p, st.cameFrom v = some p → v < n ∧ p < n
  cf_adj : ∀ v p, st.cameFrom v = some p → v ∈ adj p
  cf_mono : ∀ v p, st.cameFrom v = some p → st.gScore p ≤ st.gScore v ∧ st.gScore v < ⊤
  rooted : ∀ v, st.gScore v < ⊤ → Rooted st.cameFrom s v
  relaxed : ∀ v, v ∉ st.openL → st.gScore v < ⊤ → ∀ u ∈ adj v, st.gScore u < ⊤
  goal_open : goal ∈ st.openL ∨ st.gScore goal = ⊤

/-- The invariant holding while the neighbors of the popped node are being
relaxed: the popped node is exempt from the relaxedness obligation. -/
structure MidInv (adj : ℕ → List ℕ) (n s goal current : ℕ) (st : AState) : Prop where
  open_lt : ∀ v ∈ st.openL, v < n
  open_fin : ∀ v ∈ st.openL, st.gScore v < ⊤
  g_nonneg : ∀ v, 0 ≤ st.gScore v
  g_start : st.gScore s = 0
  cf_start : st.cameFrom s = none
  cf_lt : ∀ v p, st.cameFrom v = some p → v < n ∧ p < n
  cf_adj : ∀ v p, st.cameFrom v = some p → v ∈ adj p
  cf_mono : ∀ v p, st.cameFrom v = some p → st.gScore p ≤ st.gScore v ∧ st.gScore v < ⊤
  rooted : ∀ v, st.gScore v < ⊤ → Rooted st.cameFrom s v
  relaxed_mid : ∀ v, v ≠ current → v ∉ st.openL → st.gScore v < ⊤ → ∀ u ∈ adj v, st.gScore u < ⊤
  goal_open : goal ∈ st.openL ∨ st.gScore goal = ⊤
  cur_fin : st.gScore current < ⊤
  cur_lt : current < n

theorem mem_pushUnique_self (l : List ℕ) (v : ℕ) : v ∈ pushUnique l v := by
  unfold pushUnique
  by_cases h : v ∈ l <;> simp [h]

theorem mem_pushUnique_of_mem {l : List ℕ} {x : ℕ} (v : ℕ) (h : x ∈ l) :
    x ∈ pushUnique l v := by
  unfold pushUnique
  by_cases hv : v ∈ l <;> simp [hv, h]

theorem mem_pushUnique {l : List ℕ} {x v : ℕ} (h : x ∈ pushUnique l v) :
    x ∈ l ∨ x = v := by
  unfold pushUnique at h
  by_cases hv : v ∈ l
  · rw [if_pos hv] at h
    exact Or.inl h
  · rw [if_neg hv] at h
    rcases List.mem_append.1 h with h | h
    · exact Or.inl h
    · exact Or.inr (by simpa using h)

theorem relaxNeighbor_midinv {cost : ℕ → ℕ → ℕ → ℚ} {heur : ℕ → ℚ}
    {adj : ℕ → List ℕ} {n s goal current : ℕ}
    (hc : ∀ k a b, 0 ≤ cost k a b) (hadj : ∀ a b, b ∈ adj a → a < n ∧ b < n)
    {st : AState} (hm : MidInv adj n s goal current st) {u : ℕ} (hu : u ∈ adj current) :
    MidInv adj n s goal current (relaxNeighbor cost heur current st u) ∧
    (relaxNeighbor cost heur current st u).gScore current = st.gScore current ∧
    (∀ v, (relaxNeighbor cost heur current st u).gScore v ≤ st.gScore v) ∧
    (relaxNeighbor cost heur current st u).gScore u < ⊤ ∧
    (∀ v ∈ st.openL, v ∈ (relaxNeighbor cost heur current st u).openL) := by
  obtain ⟨open_lt, open_fin, g_nonneg, g_start, cf_start, cf_lt, cf_adj, cf_mono,
    rooted, relaxed_mid, goal_open, cur_fin, cur_lt⟩ := hm
  unfold relaxNeighbor
  set c : ℚ := cost st.rngIdx current u with hcdef
  have hc0 : (0:ℚ) ≤ c := hc _ _ _
  have hcoe : (0 : WithTop ℚ) ≤ (c : WithTop ℚ) := by exact_mod_cast hc0
  set tentative : WithTop ℚ := st.gScore current + (c : WithTop ℚ) with htdef
  have htent_ge : st.gScore current ≤ tentative := le_add_of_nonneg_right hcoe
  have htent_fin : tentative < ⊤ := by
    rw [htdef, WithTop.add_lt_top]
    exact ⟨cur_fin, WithTop.coe_lt_top c⟩
  have htent_nonneg : (0 : WithTop ℚ) ≤ tentative :=
    le_trans (g_nonneg current) htent_ge
  by_cases hlt : tentative < st.gScore u
  · rw [if_pos hlt]
    have hus : u ≠ s := by
      intro h
      rw [h, g_start] at hlt
      exact absurd hlt (not_lt.2 htent_nonneg)
    have huc : u ≠ current := by
      intro h
      rw [h] at hlt
      exact absurd hlt (not_lt.2 htent_ge)
    have hnanc : ¬ AncestorOf st.cameFrom u current := by
      intro hanc
      have hmono : ∀ v p, st.cameFrom v = some p → st.gScore p ≤ st.gScore v :=
        fun v p h => (cf_mono v p h).1
      have h1 : st.gScore u ≤ st.gScore current := ancestorOf_mono hmono hanc
      have h2 : st.gScore u ≤ tentative := le_trans h1 htent_ge
      exact absurd hlt (not_lt.2 h2)
    have hrc : Rooted st.cameFrom s current := rooted current cur_fin
    have hrc2 : Rooted (fun v => if v = u then some current else st.cameFrom v) s current :=
      rooted_update_of_not_anc hrc hnanc
    refine ⟨⟨?_, ?_, ?_, ?_, ?_, ?_, ?_, ?_, ?_, ?_, ?_, ?_, cur_lt⟩, ?_, ?_, ?_, ?_⟩
    · intro v hv
      rcases mem_pushUnique hv with hv | rfl
      · exact open_lt v hv
      · exact (hadj current v hu).2
    · intro v hv
      simp only
      by_cases hvu : v = u
      · rw [if_pos hvu]
        exact htent_fin
      · rw [if_neg hvu]
        rcases mem_pushUnique hv with hv2 | hv2
        · exact open_fin v hv2
        · exact absurd hv2 hvu
    · intro v
      simp only
      by_cases hvu : v = u
      · rw [if_pos hvu]
        exact htent_nonneg
      · rw [if_neg hvu]
        exact g_nonneg v
    · simp only [if_neg (Ne.symm hus)]
      exact g_start
    · simp only [if_neg (Ne.symm hus)]
      exact cf_start
    · intro v p hv
      simp only at hv
      by_cases hvu : v = u
      · rw [if_pos hvu] at hv
        have hpc : current = p := Option.some_injective _ hv
        rw [hvu, ← hpc]
        exact ⟨(hadj current u hu).2, (hadj current u hu).1⟩
      · rw [if_neg hvu] at hv
        exact cf_lt v p hv
    · intro v p hv
      simp only at hv
      by_cases hvu : v = u
      · rw [if_pos hvu] at hv
        have hpc : current = p := Option.some_injective _ hv
        rw [hvu, ← hpc]
        exact hu
      · rw [if_neg hvu] at hv
        exact cf_adj v p hv
    · intro v p hv
      simp only at hv ⊢
      by_cases hvu : v = u
      · rw [if_pos hvu] at hv
        have hpc : current = p := Option.some_injective _ hv
        rw [hvu, ← hpc]
        rw [if_neg (Ne.symm huc), if_pos rfl]
        exact ⟨htent_ge, htent_fin⟩
      · rw [if_neg hvu] at hv
        rw [if_neg hvu]
        by_cases hpu : p = u
        · rw [if_pos hpu]
          subst hpu
          have hold := cf_mono v p hv
          exact ⟨le_trans (le_of_lt hlt) hold.1, hold.2⟩
        · rw [if_neg hpu]
          exact cf_mono v p hv
    · intro v hv
      simp only at hv ⊢
      by_cases hvu : v = u
      · subst hvu
        exact Rooted.step (by rw [if_pos rfl]) hrc2
      · rw [if_neg hvu] at hv
        exact rooted_update hrc2 (rooted v hv)
    · intro v hvc hvo hvf w hw
      simp only at hvf ⊢
      have hvu : v ≠ u := by
        intro h
        exact hvo (h ▸ mem_pushUnique_self st.openL u)
      rw [if_neg hvu] at hvf
      have hvo2 : v ∉ st.openL := fun h => hvo (mem_pushUnique_of_mem u h)
      have hwfin := relaxed_mid v hvc hvo2 hvf w hw
      by_cases hwu : w = u
      · rw [if_pos hwu]
        exact htent_fin
      · rw [if_neg hwu]
        exact hwfin
    · rcases goal_open with hg | hg
      · exact Or.inl (mem_pushUnique_of_mem u hg)
      · by_cases hgu : goal = u
        · subst hgu
          exact Or.inl (mem_pushUnique_self st.openL goal)
        · refine Or.inr ?_
          simp only [if_neg hgu]
          exact hg
    · simp only [if_neg (Ne.symm huc)]
      exact cur_fin
    · show (if current = u then st.gScore current + (c : WithTop ℚ) else st.gScore current) =
        st.gScore current
      rw [if_neg (Ne.symm huc)]
    · intro v
      show (if v = u then st.gScore current + (c : WithTop ℚ) else st.gScore v) ≤ st.gScore v
      by_cases hvu : v = u
      · rw [if_pos hvu, hvu]
        exact le_of_lt hlt
      · rw [if_neg hvu]
    · show (if u = u then st.gScore current + (c : WithTop ℚ) else st.gScore u) < ⊤
      rw [if_pos rfl]
      exact htent_fin
    · intro v hv
      exact mem_pushUnique_of_mem u hv
  · rw [if_neg hlt]
    have hufin : st.gScore u < ⊤ := lt_of_le_of_lt (not_lt.1 hlt) htent_fin
    exact ⟨⟨open_lt, open_fin, g_nonneg, g_start, cf_start, cf_lt, cf_adj, cf_mono,
      rooted, relaxed_mid, goal_open, cur_fin, cur_lt⟩,
      rfl, fun v => le_refl _, hufin, fun v hv => hv⟩

theorem relax_fold_midinv {cost : ℕ → ℕ → ℕ → ℚ} {heur : ℕ → ℚ}
    {adj : ℕ → List ℕ} {n s goal current : ℕ}
    (hc : ∀ k a b, 0 ≤ cost k a b) (hadj : ∀ a b, b ∈ adj a → a < n ∧ b < n) :
    ∀ (l : List ℕ), (∀ u ∈ l, u ∈ adj current) → ∀ (st : AState),
      MidInv adj n s goal current st →
      MidInv adj n s goal current (l.foldl (relaxNeighbor cost heur current) st) ∧
      (l.foldl (relaxNeighbor cost heur current) st).gScore current = st.gScore current ∧
      (∀ v, (l.foldl (relaxNeighbor cost heur current) st).gScore v ≤ st.gScore v) ∧
      (∀ u ∈ l, (l.foldl (relaxNeighbor cost heur current) st).gScore u < ⊤) ∧
      (∀ v ∈ st.openL, v ∈ (l.foldl (relaxNeighbor cost heur current) st).openL) := by
  intro l
  induction l with
  | nil =>
    intro _ st hm
    exact ⟨hm, rfl, fun v => le_refl _, by simp, fun v hv => hv⟩
  | cons u us ih =>
    intro hsub st hm
    have hu : u ∈ adj current := hsub u (List.mem_cons_self u us)
    obtain ⟨hm1, hgc1, hmono1, hufin1, hopen1⟩ := relaxNeighbor_midinv hc hadj hm hu
    have hsub2 : ∀ w ∈ us, w ∈ adj current := fun w hw => hsub w (List.mem_cons_of_mem _ hw)
    obtain ⟨hm2, hgc2, hmono2, hproc2, hopen2⟩ :=
      ih hsub2 (relaxNeighbor cost heur current st u) hm1
    rw [List.foldl_cons]
    refine ⟨hm2, by rw [hgc2, hgc1], fun v => le_trans (hmono2 v) (hmono1 v), ?_, ?_⟩
    · intro w hw
      rcases List.mem_cons.1 hw with rfl | hw
      · exact lt_of_le_of_lt (hmono2 w) hufin1
      · exact hproc2 w hw
    · intro v hv
      exact hopen2 v (hopen1 v hv)

theorem body_ainv {cost : ℕ → ℕ → ℕ → ℚ} {heur : ℕ → ℚ}
    {adj : ℕ → List ℕ} {n s goal : ℕ}
    (hc : ∀ k a b, 0 ≤ cost k a b) (hadj : ∀ a b, b ∈ adj a → a < n ∧ b < n)
    {st : AState} {current : ℕ}
    (hI : AInv adj n s goal st) (hcur : current ∈ st.openL) (hng : current ≠ goal) :
    AInv adj n s goal ((adj current).foldl (relaxNeighbor cost heur current)
      { st with openL := st.openL.erase current }) := by
  set st1 : AState := { st with openL := st.openL.erase current } with hst1
  have hm1 : MidInv adj n s goal current st1 := by
    refine ⟨?_, ?_, hI.g_nonneg, hI.g_start, hI.cf_start, hI.cf_lt, hI.cf_adj, hI.cf_mono,
      hI.rooted, ?_, ?_, hI.open_fin current hcur, hI.open_lt current hcur⟩
    · intro v hv
      exact hI.open_lt v (List.mem_of_mem_erase hv)
    · intro v hv
      exact hI.open_fin v (List.mem_of_mem_erase hv)
    · intro v hvc hvo hvf w hw
      refine hI.relaxed v ?_ hvf w hw
      intro hvin
      exact hvo ((List.mem_erase_of_ne hvc).2 hvin)
    · rcases hI.goal_open with hg | hg
      · exact Or.inl ((List.mem_erase_of_ne (Ne.symm hng)).2 hg)
      · exact Or.inr hg
  obtain ⟨hm2, _, _, hproc2, _⟩ :=
    relax_fold_midinv hc hadj (adj current) (fun u hu => hu) st1 hm1
  refine ⟨hm2.open_lt, hm2.open_fin, hm2.g_nonneg, hm2.g_start, hm2.cf_start, hm2.cf_lt,
    hm2.cf_adj, hm2.cf_mono, hm2.rooted, ?_, hm2.goal_open⟩
  intro v hvo hvf w hw
  by_cases hvc : v = current
  · subst hvc
    exact hproc2 w hw
  · exact hm2.relaxed_mid v hvc hvo hvf w hw

/-- A well-formed output path of the loop: nonempty, from the start node to
the goal node, consecutive nodes adjacent, no repeated node. -/
def GoodPath (adj : ℕ → List ℕ) (s goal : ℕ) (p : List ℕ) : Prop :=
  p ≠ [] ∧ p.head? = some s ∧ p.getLast? = some goal ∧
    List.Chain' (fun a b => b ∈ adj a) p ∧ p.Nodup

theorem findPathLoop_succ (cost : ℕ → ℕ → ℕ → ℚ) (adj : ℕ → List ℕ) (heur : ℕ → ℚ)
    (goal reconFuel fuel : ℕ) (st : AState) :
    findPathLoop cost adj heur goal reconFuel (fuel + 1) st =
      (if st.openL.isEmpty then some [] else
        match selectCurrent st.fScore st.openL with
        | none => findPathLoop cost adj heur goal reconFuel fuel st
        | some current =>
          if current = goal then some (reconstructPath st.cameFrom reconFuel current)
          else findPathLoop cost adj heur goal reconFuel fuel
            ((adj current).foldl (relaxNeighbor cost heur current)
              { st with openL := st.openL.erase current })) := by
  cases h : st.openL with
  | nil =>
    simp only [findPathLoop, h, List.isEmpty_nil, if_true]
  | cons a rest =>
    simp only [findPathLoop, h, List.isEmpty_cons, Bool.false_eq_true, if_false]

theorem findPathLoop_spec {cost : ℕ → ℕ → ℕ → ℚ} {heur : ℕ → ℚ}
    {adj : ℕ → List ℕ} {n s goal reconFuel : ℕ}
    (hc : ∀ k a b, 0 ≤ cost k a b) (hadj : ∀ a b, b ∈ adj a → a < n ∧ b < n)
    (hrf : n ≤ reconFuel + 1) (hsn : s < n) :
    ∀ (fuel : ℕ) (st : AState), AInv adj n s goal st →
      ∀ p, findPathLoop cost adj heur goal reconFuel fuel st = some p →
        (p = [] ∧ ¬ Relation.ReflTransGen (fun a b => b ∈ adj a) s goal) ∨
          GoodPath adj s goal p := by
  intro fuel
  induction fuel with
  | zero =>
    intro st hI p hp
    simp [findPathLoop] at hp
  | succ fuel ih =>
    intro st hI p hp
    rw [findPathLoop_succ] at hp
    by_cases hopen : st.openL.isEmpty
    · rw [if_pos hopen, Option.some.injEq] at hp
      have hopen2 : st.openL = [] := List.isEmpty_iff.1 hopen
      refine Or.inl ⟨hp.symm, ?_⟩
      intro hreach
      have hfin : ∀ x, Relation.ReflTransGen (fun a b => b ∈ adj a) s x →
          st.gScore x < ⊤ := by
        intro x hx
        induction hx with
        | refl =>
          rw [hI.g_start]
          exact WithTop.coe_lt_top (0 : ℚ)
        | tail hab hbc ih2 =>
          rename_i b c
          refine hI.relaxed b ?_ ih2 c hbc
          rw [hopen2]
          exact List.not_mem_nil b
      have hg := hfin goal hreach
      rcases hI.goal_open with h | h
      · rw [hopen2] at h
        exact List.not_mem_nil goal h
      · rw [h] at hg
        exact lt_irrefl ⊤ hg
    · rw [if_neg hopen] at hp
      cases hsel : selectCurrent st.fScore st.openL with
      | none =>
        rw [hsel] at hp
        dsimp only at hp
        exact ih st hI p hp
      | some current =>
        rw [hsel] at hp
        dsimp only at hp
        have hcurmem : current ∈ st.openL := selectCurrent_mem hsel
        by_cases hcg : current = goal
        · rw [if_pos hcg, Option.some.injEq] at hp
          rw [hcg] at hcurmem
          have hgfin : st.gScore goal < ⊤ := hI.open_fin goal hcurmem
          have hr : Rooted st.cameFrom s goal := hI.rooted goal hgfin
          obtain ⟨l, hne, hhead, hlast, hchain, hnd, hmem, hrec⟩ :=
            rooted_chain hI.cf_start hr
          have hlt : ∀ x ∈ l, x < n := by
            intro x hx
            rcases hmem x hx with rfl | ⟨y, hy⟩
            · exact hsn
            · exact (hI.cf_lt x y hy).1
          have hlen : l.length ≤ n := length_le_of_nodup_lt hnd hlt
          have hpl : p = l := by
            rw [← hp, hcg]
            exact hrec reconFuel (le_trans hlen hrf)
          subst hpl
          refine Or.inr ⟨hne, hhead, hlast, ?_, hnd⟩
          exact List.Chain'.imp (fun x y h => hI.cf_adj y x h) hchain
        · rw [if_neg hcg] at hp
          exact ih _ (body_ainv hc hadj hI hcurmem hcg) p hp

theorem chain_reflTransGen {R : ℕ → ℕ → Prop} :
    ∀ {p : List ℕ} {a b : ℕ}, p.head? = some a → p.getLast? = some b →
      List.Chain' R p → Relation.ReflTransGen R a b := by
  intro p
  induction p with
  | nil =>
    intro a b h
    cases h
  | cons x t ih =>
    intro a b hh hl hc
    have hxa : x = a := by simpa using hh
    subst hxa
    cases t with
    | nil =>
      have hxb : x = b := by simpa using hl
      exact hxb ▸ Relation.ReflTransGen.refl
    | cons y t2 =>
      have hr : R x y := (List.chain'_cons.1 hc).1
      have hc2 : List.Chain' R (y :: t2) := (List.chain'_cons.1 hc).2
      have hl2 : (y :: t2).getLast? = some b := by
        rw [← hl, List.getLast?_cons_cons]
      exact Relation.ReflTransGen.head hr (ih rfl hl2 hc2)

theorem initState_ainv {edges : List (ℕ × ℕ)} {n s goal : ℕ} (heur : ℕ → ℚ)
    (hval : ValidEdges edges n) (hs : s < n) (hsg : s ≠ goal) :
    AInv (buildGraph edges) n s goal (initState heur s) := by
  refine ⟨?_, ?_, ?_, ?_, rfl, ?_, ?_, ?_, ?_, ?_, ?_⟩
  · intro v hv
    have : v = s := by simpa [initState] using hv
    exact this ▸ hs
  · intro v hv
    have hvs : v = s := by simpa [initState] using hv
    simp [initState, hvs]
  · intro v
    simp only [initState]
    by_cases hvs : v = s
    · rw [if_pos hvs]
    · rw [if_neg hvs]
      exact le_top
  · simp [initState]
  · intro v p hv
    simp [initState] at hv
  · intro v p hv
    simp [initState] at hv
  · intro v p hv
    simp [initState] at hv
  · intro v hv
    simp only [initState] at hv
    by_cases hvs : v = s
    · exact hvs ▸ Rooted.base
    · rw [if_neg hvs] at hv
      exact absurd hv (lt_irrefl ⊤)
  · intro v hvo hvf u hu
    simp only [initState] at hvo hvf
    have hvs : v ≠ s := by
      intro h
      exact hvo (by simp [h])
    rw [if_neg hvs] at hvf
    exact absurd hvf (lt_irrefl ⊤)
  · refine Or.inr ?_
    simp only [initState]
    rw [if_neg (Ne.symm hsg)]

/-- General postcondition of findPath, for a run that returned (fuel did not
run out): with start equal to goal the result is the singleton; with no
route the result is the empty path; otherwise the result is a duplicate-free
path from start to goal whose consecutive nodes are joined by graph edges. -/
theorem findPath_spec {d : Dist} {nodes : List Point} {edges : List (ℕ × ℕ)}
    {s goal : ℕ} {randomize : Bool} {jitter : ℕ → ℚ} {fuel : ℕ} {p : List ℕ}
    (hd : ∀ a b, 0 ≤ d a b) (hjit : ∀ k, 0 ≤ 1 + jitter k)
    (hval : ValidEdges edges nodes.length) (hs : s < nodes.length)
    (hrun : findPath d nodes edges s goal randomize jitter fuel = some p) :
    (s = goal → p = [s]) ∧
    (¬ Reachable edges s goal → p = []) ∧
    (s ≠ goal → Reachable edges s goal →
      p ≠ [] ∧ p.head? = some s ∧ p.getLast? = some goal ∧
        List.Chain' (Adjacent edges) p ∧ p.Nodup) := by
  by_cases hsg : s = goal
  · rw [findPath, if_pos hsg, Option.some.injEq] at hrun
    refine ⟨fun _ => hrun.symm, fun hnr => ?_, fun hne _ => absurd hsg hne⟩
    exact absurd (hsg ▸ Relation.ReflTransGen.refl) hnr
  · rw [findPath, if_neg hsg] at hrun
    have hadj : ∀ a b, b ∈ buildGraph edges a → a < nodes.length ∧ b < nodes.length :=
      fun a b h => mem_buildGraph_lt hval h
    have hcost : ∀ (k a b : ℕ),
        0 ≤ edgeCost d nodes a b * (if randomize then 1 + jitter k else 1) := by
      intro k a b
      refine mul_nonneg (hd _ _) ?_
      by_cases hr : randomize
      · rw [if_pos hr]
        exact hjit k
      · rw [if_neg hr]
        norm_num
    have hinit := @initState_ainv edges nodes.length s goal
      (fun v => d (nodeAt nodes v) (nodeAt nodes goal)) hval hs hsg
    have hspec := findPathLoop_spec hcost hadj (Nat.le_succ nodes.length) hs fuel _ hinit p hrun
    have hreach_equiv : Relation.ReflTransGen (fun a b => b ∈ buildGraph edges a) s goal ↔
        Reachable edges s goal := by
      constructor
      · exact Relation.ReflTransGen.mono (fun a b h => mem_buildGraph.1 h)
      · exact Relation.ReflTransGen.mono (fun a b h => mem_buildGraph.2 h)
    refine ⟨fun h => absurd h hsg, ?_, ?_⟩
    · intro hnr
      rcases hspec with ⟨hp, _⟩ | ⟨hne, hh, hl, hch, hnd⟩
      · exact hp
      · exfalso
        refine hnr (hreach_equiv.1 ?_)
        exact chain_reflTransGen hh hl hch
    · intro _ hreach
      rcases hspec with ⟨_, hnr⟩ | ⟨hne, hh, hl, hch, hnd⟩
      · exact absurd (hreach_equiv.2 hreach) hnr
      · exact ⟨hne, hh, hl, List.Chain'.imp (fun a b h => mem_buildGraph.1 h) hch, hnd⟩

/-- The three-node line graph of the concrete scenario. -/
def demoEdges : List (ℕ × ℕ) := [(0, 1), (1, 2)]

theorem adjacent_demo {a b : ℕ} : Adjacent demoEdges a b ↔
    ((a = 0 ∧ b = 1) ∨ (a = 1 ∧ b = 2) ∨ (b = 0 ∧ a = 1) ∨ (b = 1 ∧ a = 2)) := by
  simp only [Adjacent, demoEdges, List.mem_cons, List.not_mem_nil, or_false,
    Prod.mk.injEq, List.mem_singleton]
  tauto

theorem demo_path_unique {p : List ℕ}
    (hh : p.head? = some 0) (hl : p.getLast? = some 2)
    (hch : List.Chain' (Adjacent demoEdges) p) (hnd : p.Nodup) : p = [0, 1, 2] := by
  cases p with
  | nil => cases hh
  | cons x t =>
    have hx : x = 0 := by simpa using hh
    subst hx
    cases t with
    | nil =>
      have : (0 : ℕ) = 2 := by simpa using hl
      cases this
    | cons a t2 =>
      have hadj1 : Adjacent demoEdges 0 a := (List.chain'_cons.1 hch).1
      have ha : a = 1 := by
        rcases adjacent_demo.1 hadj1 with ⟨h1, h2⟩ | ⟨h1, h2⟩ | ⟨h1, h2⟩ | ⟨h1, h2⟩ <;> omega
      subst ha
      have hch2 : List.Chain' (Adjacent demoEdges) (1 :: t2) := (List.chain'_cons.1 hch).2
      cases t2 with
      | nil =>
        have : (1 : ℕ) = 2 := by simpa using hl
        cases this
      | cons b t3 =>
        have hadj2 : Adjacent demoEdges 1 b := (List.chain'_cons.1 hch2).1
        have hb : b = 2 ∨ b = 0 := by
          rcases adjacent_demo.1 hadj2 with ⟨h1, h2⟩ | ⟨h1, h2⟩ | ⟨h1, h2⟩ | ⟨h1, h2⟩ <;> omega
        have hb2 : b = 2 := by
          rcases hb with h | h
          · exact h
          · exfalso
            subst h
            simp [List.nodup_cons] at hnd
        subst hb2
        have hch3 : List.Chain' (Adjacent demoEdges) (2 :: t3) := (List.chain'_cons.1 hch2).2
        cases t3 with
        | nil => rfl
        | cons c t4 =>
          exfalso
          have hadj3 : Adjacent demoEdges 2 c := (List.chain'_cons.1 hch3).1
          have hc : c = 1 := by
            rcases adjacent_demo.1 hadj3 with ⟨h1, h2⟩ | ⟨h1, h2⟩ | ⟨h1, h2⟩ | ⟨h1, h2⟩ <;> omega
          subst hc
          simp [List.nodup_cons] at hnd

theorem reachable_demo : Reachable demoEdges 0 2 := by
  have h01 : Adjacent demoEdges 0 1 := Or.inl (by simp [demoEdges])
  have h12 : Adjacent demoEdges 1 2 := Or.inl (by simp [demoEdges])
  exact Relation.ReflTransGen.head h01
    (Relation.ReflTransGen.head h12 Relation.ReflTransGen.refl)

/-- C2.  Postcondition of Pathfinding.findPath: for every graph, node pair,
distance oracle and jitter oracle, if the search returned (some p, fuel did
not run out) then с equal to goal gives the singleton path, an unreachable
goal gives the empty sequence (a value, not an error), and otherwise p is a
nonempty duplicate-free path whose first element is s, whose last element is
goal, and whose consecutive elements are joined by an edge of the graph.  On
the three-node line graph 0 - 1 - 2 with edges [(0,1), (1,2)], any returned
findPath result for 0 to 2 is exactly [0, 1, 2]. -/
theorem findPath_postcondition {d : Dist} {nodes : List Point} {edges : List (ℕ × ℕ)}
    {s goal : ℕ} {randomize : Bool} {jitter : ℕ → ℚ} {fuel : ℕ} {p : List ℕ}
    (hd : ∀ a b, 0 ≤ d a b) (hjit : ∀ k, 0 ≤ 1 + jitter k)
    (hval : ValidEdges edges nodes.length) (hs : s < nodes.length)
    (hrun : findPath d nodes edges s goal randomize jitter fuel = some p) :
    ((s = goal → p = [s]) ∧
     (¬ Reachable edges s goal → p = []) ∧
     (s ≠ goal → Reachable edges s goal →
       p ≠ [] ∧ p.head? = some s ∧ p.getLast? = some goal ∧
         List.Chain' (Adjacent edges) p ∧ p.Nodup)) ∧
    (∀ (nodes3 : List Point) (fuel2 : ℕ) (p2 : List ℕ), nodes3.length = 3 →
      findPath d nodes3 demoEdges 0 2 randomize jitter fuel2 = some p2 → p2 = [0, 1, 2]) := by
  refine ⟨findPath_spec hd hjit hval hs hrun, ?_⟩
  intro nodes3 fuel2 p2 hlen hrun2
  have hval3 : ValidEdges demoEdges nodes3.length := by
    rw [hlen]
    intro e he
    simp only [demoEdges, List.mem_cons, List.not_mem_nil, or_false, List.mem_singleton] at he
    rcases he with rfl | rfl <;> simp
  have hs3 : 0 < nodes3.length := by rw [hlen]; norm_num
  have hspec2 := findPath_spec hd hjit hval3 hs3 hrun2
  have hvalid := hspec2.2.2 (by norm_num) reachable_demo
  exact demo_path_unique hvalid.2.1 hvalid.2.2.1 hvalid.2.2.2.1 hvalid.2.2.2.2

/-- An axis-aligned distance oracle: on the collinear demo nodes below it
coincides with the Euclidean metric used by the source. -/
def axisDist : Dist := fun a b => |b.x - a.x| + |b.y - a.y|

/-- Concrete positions for the three-node line graph. -/
def demoNodes : List Point := [⟨0, 0⟩, ⟨100, 0⟩, ⟨200, 0⟩]

theorem axisDist_nonneg : ∀ a b, 0 ≤ axisDist a b := by
  intro a b
  unfold axisDist
  positivity

section EvalSection

attribute [local semireducible] Rat.add Rat.mul Rat.inv Rat.sub Rat.ofScientific

/-- Witness for C2: the concrete line-graph run, with all hypotheses
discharged and the run evaluated. -/
theorem findPath_postcondition_witness :
    (∀ a b, 0 ≤ axisDist a b) ∧ (∀ k : ℕ, (0:ℚ) ≤ 1 + (fun _ : ℕ => (0:ℚ)) k) ∧
    ValidEdges demoEdges demoNodes.length ∧ 0 < demoNodes.length ∧
    findPath axisDist demoNodes demoEdges 0 2 false (fun _ => 0) 10 = some [0, 1, 2] ∧
    (((0 = 2 → [0, 1, 2] = [0]) ∧
      (¬ Reachable demoEdges 0 2 → ([0, 1, 2] : List ℕ) = []) ∧
      ((0 : ℕ) ≠ 2 → Reachable demoEdges 0 2 →
        ([0, 1, 2] : List ℕ) ≠ [] ∧ ([0, 1, 2] : List ℕ).head? = some 0 ∧
          ([0, 1, 2] : List ℕ).getLast? = some 2 ∧
          List.Chain' (Adjacent demoEdges) [0, 1, 2] ∧ ([0, 1, 2] : List ℕ).Nodup)) ∧
     (∀ (nodes3 : List Point) (fuel2 : ℕ) (p2 : List ℕ), nodes3.length = 3 →
       findPath axisDist nodes3 demoEdges 0 2 false (fun _ => 0) fuel2 = some p2 →
         p2 = [0, 1, 2])) := by
  have hrun : findPath axisDist demoNodes demoEdges 0 2 false (fun _ => 0) 10 =
      some [0, 1, 2] := by decide
  have hval : ValidEdges demoEdges demoNodes.length := by
    intro e he
    simp only [demoEdges, List.mem_cons, List.not_mem_nil, or_false, List.mem_singleton] at he
    rcases he with rfl | rfl <;> simp [demoNodes]
  refine ⟨axisDist_nonneg, by norm_num, hval, by decide, hrun, ?_⟩
  exact findPath_postcondition axisDist_nonneg (by norm_num) hval (by decide) hrun

end EvalSection

end Pathfinding

namespace Enemy

/-- The routing-relevant state of an Enemy instance (source lines 389-434).
Combat statistics (health, speed, config) are independent of the routing
logic and are not modelled; positions are rationals standing for the IEEE
doubles of the source. -/
structure EnemyState where
  path : List ℕ
  currentPathIndex : ℕ
  x : ℚ
  y : ℚ
  targetX : ℚ
  targetY : ℚ
  attractionTimer : ℚ
  attractionX : ℚ
  attractionY : ℚ
  attractedToNode : Option ℕ
  originalPath : Option (List ℕ)
  processedHoneypots : List ℕ
  slowFactor : ℚ
  slowTimer : ℚ
  alive : Bool
  reachedGoal : Bool
deriving DecidableEq, Repr

/-- The Enemy constructor (source lines 390-434): it unconditionally reads
nodes[path[0]] for the spawn position and nodes[path[1]] for the first
movement target.  A missing read (undefined access in JS) is modelled as
none. -/
def construct (path : List ℕ) (nodes : List Pathfinding.Point) : Option EnemyState :=
  match path.get? 0 with
  | none => none
  | some p0 =>
    match nodes.get? p0 with
    | none => none
    | some n0 =>
      match path.get? 1 with
      | none => none
      | some p1 =>
        match nodes.get? p1 with
        | none => none
        | some n1 =>
          some
            { path := path, currentPathIndex := 0, x := n0.x, y := n0.y,
              targetX := n1.x, targetY := n1.y, attractionTimer := 0,
              attractionX := 0, attractionY := 0, attractedToNode := none,
              originalPath := none, processedHoneypots := [],
              slowFactor := 1, slowTimer := 0, alive := true, reachedGoal := false }

/-- The splice portion of Enemy.rerouteToNode (source lines 575-656),
starting after the guards, the originalPath snapshot and the attractedToNode
assignment: compute the three candidate paths, abandon on failure, otherwise
choose the entry direction and install the spliced path. -/
def rerouteSplice (d : Pathfinding.Dist) (fuel : ℕ) (nodes : List Pathfinding.Point)
    (edges : List (ℕ × ℕ)) (s2 : EnemyState) (nodeId prev next goalN : ℕ) : EnemyState :=
  let pathFromPrev := (Pathfinding.findPath d nodes edges prev nodeId false (fun _ => 0) fuel).getD []
  let pathFromNext := (Pathfinding.findPath d nodes edges next nodeId false (fun _ => 0) fuel).getD []
  let pathHpToGoal := (Pathfinding.findPath d nodes edges nodeId goalN false (fun _ => 0) fuel).getD []
  if pathHpToGoal = [] then s2
  else if pathFromPrev = [] ∧ pathFromNext = [] then s2
  else
    let distToPrev := d ⟨s2.x, s2.y⟩ (Pathfinding.nodeAt nodes prev)
    let distToNext := d ⟨s2.x, s2.y⟩ (Pathfinding.nodeAt nodes next)
    let useNext : Bool :=
      if pathFromPrev.length > 0 then
        if prev = nodeId then false
        else if pathFromNext.length = 0 then false
        else if distToPrev + (pathFromPrev.length : ℚ) * 100 <
            (distToNext + (pathFromNext.length : ℚ) * 100) * 1.1 then false
        else true
      else true
    let pathToHp : List ℕ := if useNext then prev :: pathFromNext else next :: pathFromPrev
    let fullPath : List ℕ := pathToHp ++ pathHpToGoal.tail
    let s3 : EnemyState := { s2 with path := fullPath, currentPathIndex := 0 }
    let s4 : EnemyState :=
      match nodes.get? (fullPath.getD 0 0) with
      | some pt => { s3 with x := pt.x, y := pt.y }
      | none => s3
    if fullPath.length > 1 then
      { s4 with
        targetX := (Pathfinding.nodeAt nodes (fullPath.getD 1 0)).x,
        targetY := (Pathfinding.nodeAt nodes (fullPath.getD 1 0)).y }
    else s4

/-- Enemy.rerouteToNode (source lines 539-661).  The distance oracle d
stands for Graphics.distance; fuel feeds the embedded findPath runs (the
source search always terminates; a fuel-exhausted none is read as an empty
path, and the theorems below use explicit some-form hypotheses so the
distinction never matters).  Every early return of the source is modelled by
returning the state built so far. -/
def rerouteToNode (d : Pathfinding.Dist) (fuel : ℕ) (nodes : List Pathfinding.Point)
    (edges : List (ℕ × ℕ)) (s : EnemyState) (nodeId : ℕ) : EnemyState :=
  if s.processedHoneypots.contains nodeId then s
  else if s.attractedToNode ≠ none ∧ s.attractedToNode ≠ some nodeId then s
  else if s.attractedToNode = some nodeId ∧ ¬ (s.path.get? s.currentPathIndex = some nodeId) then s
  else if s.path = [] then s
  else if s.currentPathIndex ≥ s.path.length - 1 then s
  else
    let s1 : EnemyState :=
      if s.originalPath = none then { s with originalPath := some s.path } else s
    let s2 : EnemyState := { s1 with attractedToNode := some nodeId }
    match s2.path.get? s2.currentPathIndex, s2.path.get? (s2.currentPathIndex + 1),
        s2.path.getLast? with
    | some prev, some next, some goalN => rerouteSplice d fuel nodes edges s2 nodeId prev next goalN
    | _, _, _ => s2

/-- The status-effect bookkeeping at the top of Enemy.update (source lines
443-456): attraction and slow timers tick down and the slow factor resets. -/
def tickStatus (s : EnemyState) (dt : ℚ) : EnemyState :=
  let s1 : EnemyState :=
    if s.attractionTimer > 0 then { s with attractionTimer := s.attractionTimer - dt }
    else { s with slowFactor := 1 }
  if s1.slowTimer > 0 then
    (let st2 : EnemyState := { s1 with slowTimer := s1.slowTimer - dt }
     if st2.slowTimer ≤ 0 then { st2 with slowFactor := 1 } else st2)
  else s1

/-- The target-node-reached branch of Enemy.update (source lines 466-495):
advance the index, snap to the node, mark a reached attractor as processed
and clear it, and aim at the following node when one exists. -/
def moveArrive (nodes : List Pathfinding.Point) (s2 : EnemyState) : EnemyState :=
  let idx := s2.currentPathIndex + 1
  if idx ≥ s2.path.length then
    { s2 with currentPathIndex := idx, reachedGoal := true }
  else
    let nextNode := s2.path.getD idx 0
    let s3 : EnemyState :=
      { s2 with
        currentPathIndex := idx,
        x := (Pathfinding.nodeAt nodes nextNode).x,
        y := (Pathfinding.nodeAt nodes nextNode).y }
    let s4 : EnemyState :=
      if s3.attractedToNode = some nextNode then
        { s3 with
          processedHoneypots := Pathfinding.pushUnique s3.processedHoneypots nextNode,
          attractedToNode := none }
      else s3
    if idx < s4.path.length - 1 then
      { s4 with
        targetX := (Pathfinding.nodeAt nodes (s4.path.getD (idx + 1) 0)).x,
        targetY := (Pathfinding.nodeAt nodes (s4.path.getD (idx + 1) 0)).y }
    else s4

/-- Enemy.update (source lines 439-501), for the movement bookkeeping.  The
floating-point move test (distance below effectiveSpeed) and the fractional
move target are data the embedding cannot reproduce exactly, so they enter
as the oracle inputs reached, movedX, movedY; every branch that touches the
path, index, attraction or visited-set state is modelled faithfully. -/
def update (nodes : List Pathfinding.Point) (s : EnemyState) (dt : ℚ)
    (reached : Bool) (movedX movedY : ℚ) : EnemyState :=
  if s.alive = false ∨ s.reachedGoal = true then s
  else
    let s2 : EnemyState := tickStatus s dt
    if reached then moveArrive nodes s2
    else { s2 with x := movedX, y := movedY }

theorem tickStatus_fields (s : EnemyState) (dt : ℚ) :
    (tickStatus s dt).path = s.path ∧
    (tickStatus s dt).currentPathIndex = s.currentPathIndex ∧
    (tickStatus s dt).attractedToNode = s.attractedToNode ∧
    (tickStatus s dt).processedHoneypots = s.processedHoneypots := by
  unfold tickStatus
  dsimp only
  split_ifs <;> exact ⟨rfl, rfl, rfl, rfl⟩

theorem moveArrive_processed_subset (nodes : List Pathfinding.Point) (s2 : EnemyState) :
    ∀ x ∈ s2.processedHoneypots, x ∈ (moveArrive nodes s2).processedHoneypots := by
  intro x hx
  unfold moveArrive
  dsimp only
  split_ifs <;>
    first
      | exact hx
      | exact Pathfinding.mem_pushUnique_of_mem _ hx

theorem moveArrive_adds (nodes : List Pathfinding.Point) (s2 : EnemyState)
    (hidx : s2.currentPathIndex + 1 < s2.path.length)
    (hattr : s2.attractedToNode = some (s2.path.getD (s2.currentPathIndex + 1) 0)) :
    s2.path.getD (s2.currentPathIndex + 1) 0 ∈ (moveArrive nodes s2).processedHoneypots := by
  unfold moveArrive
  dsimp only
  rw [if_neg (by omega)]
  rw [if_pos hattr]
  dsimp only
  split_ifs <;> exact Pathfinding.mem_pushUnique_self _ _

/-- C10.  Agent construction precondition: findPath with start equal to goal
returns the single-element path, and constructing an Enemy on any
single-element (or empty) path fails, because the constructor
unconditionally reads the second path element for its first movement
target. -/
theorem construct_singleton_fails (nodes nodes2 : List Pathfinding.Point) (v : ℕ)
    (d : Pathfinding.Dist) (edges : List (ℕ × ℕ)) (randomize : Bool)
    (jitter : ℕ → ℚ) (fuel : ℕ) :
    Pathfinding.findPath d nodes2 edges v v randomize jitter fuel = some [v] ∧
    construct [v] nodes = none ∧
    construct [] nodes = none := by
  refine ⟨?_, ?_, rfl⟩
  · rw [Pathfinding.findPath, if_pos rfl]
  · cases h : nodes[v]? with
    | none => simp [construct, h]
    | some n0 => simp [construct, h]

/-- The construction precondition instantiated on the demo graph. -/
theorem construct_singleton_fails_witness :
    Pathfinding.findPath Pathfinding.axisDist Pathfinding.demoNodes Pathfinding.demoEdges
      1 1 false (fun _ => 0) 5 = some [1] ∧
    construct [1] Pathfinding.demoNodes = none ∧
    construct [] Pathfinding.demoNodes = none :=
  construct_singleton_fails Pathfinding.demoNodes Pathfinding.demoNodes 1 Pathfinding.axisDist
    Pathfinding.demoEdges false (fun _ => 0) 5

set_option maxHeartbeats 1000000 in
theorem rerouteSplice_processed_eq (d : Pathfinding.Dist) (fuel : ℕ)
    (nodes : List Pathfinding.Point) (edges : List (ℕ × ℕ))
    (s2 : EnemyState) (nodeId prev next goalN : ℕ) :
    (rerouteSplice d fuel nodes edges s2 nodeId prev next goalN).processedHoneypots =
      s2.processedHoneypots := by
  unfold rerouteSplice
  generalize (Pathfinding.findPath d nodes edges prev nodeId false (fun _ => 0) fuel).getD [] = PP
  generalize (Pathfinding.findPath d nodes edges next nodeId false (fun _ => 0) fuel).getD [] = PN
  generalize (Pathfinding.findPath d nodes edges nodeId goalN false (fun _ => 0) fuel).getD [] = PG
  dsimp only
  split_ifs <;> try rfl
  all_goals (split <;> rfl)

theorem rerouteToNode_processed_eq (d : Pathfinding.Dist) (fuel : ℕ)
    (nodes : List Pathfinding.Point) (edges : List (ℕ × ℕ))
    (s : EnemyState) (nodeId : ℕ) :
    (rerouteToNode d fuel nodes edges s nodeId).processedHoneypots = s.processedHoneypots := by
  unfold rerouteToNode
  split_ifs with h1 h2 h3 h4 h5 h6 <;> try rfl
  all_goals dsimp only
  all_goals
    cases s.path.get? s.currentPathIndex <;>
    cases s.path.get? (s.currentPathIndex + 1) <;>
    cases s.path.getLast? <;>
    first
      | rfl
      | rw [rerouteSplice_processed_eq]

theorem rerouteToNode_idem (d : Pathfinding.Dist) (fuel : ℕ)
    (nodes : List Pathfinding.Point) (edges : List (ℕ × ℕ))
    (s : EnemyState) (nodeId : ℕ) (h : nodeId ∈ s.processedHoneypots) :
    rerouteToNode d fuel nodes edges s nodeId = s := by
  unfold rerouteToNode
  rw [if_pos]
  simpa using h

theorem update_processed_subset (nodes : List Pathfinding.Point) (s : EnemyState)
    (dt movedX movedY : ℚ) (reached : Bool) :
    ∀ x ∈ s.processedHoneypots,
      x ∈ (update nodes s dt reached movedX movedY).processedHoneypots := by
  intro x hx
  unfold update
  dsimp only
  have hx2 : x ∈ (tickStatus s dt).processedHoneypots := by
    rw [(tickStatus_fields s dt).2.2.2]
    exact hx
  split_ifs <;>
    first
      | exact hx
      | exact hx2
      | exact moveArrive_processed_subset nodes (tickStatus s dt) x hx2

theorem update_arrival_adds (nodes : List Pathfinding.Point) (s : EnemyState)
    (dt movedX movedY : ℚ)
    (halive : s.alive = true) (hgoal : s.reachedGoal = false)
    (hidx : s.currentPathIndex + 1 < s.path.length)
    (hattr : s.attractedToNode = some (s.path.getD (s.currentPathIndex + 1) 0)) :
    s.path.getD (s.currentPathIndex + 1) 0 ∈
      (update nodes s dt true movedX movedY).processedHoneypots := by
  unfold update
  rw [if_neg (by simp [halive, hgoal])]
  dsimp only
  rw [if_pos rfl]
  obtain ⟨hpath, hidx2, hattr2, hproc2⟩ := tickStatus_fields s dt
  have hres := moveArrive_adds nodes (tickStatus s dt)
    (by rw [hpath, hidx2]; exact hidx)
    (by rw [hattr2, hidx2, hpath]; exact hattr)
  rw [hidx2, hpath] at hres
  exact hres

/-- C7.  Visited-attractor monotonicity and idempotence: the visited set is
never shrunk by rerouteToNode (it is left exactly as it was) nor by update
(which only ever adds the active attractor on arrival at it), and once an
attractor is in the set a further attraction event referencing it leaves the
whole agent state, in particular path, traversal index and attraction state,
unchanged. -/
theorem visited_attractors_monotone (d : Pathfinding.Dist) (fuel : ℕ)
    (nodes : List Pathfinding.Point) (edges : List (ℕ × ℕ)) (s : EnemyState)
    (nodeId : ℕ) (dt movedX movedY : ℚ) (reached : Bool) :
    (nodeId ∈ s.processedHoneypots → rerouteToNode d fuel nodes edges s nodeId = s) ∧
    (rerouteToNode d fuel nodes edges s nodeId).processedHoneypots = s.processedHoneypots ∧
    (∀ x ∈ s.processedHoneypots,
      x ∈ (update nodes s dt reached movedX movedY).processedHoneypots) ∧
    (s.alive = true → s.reachedGoal = false → s.currentPathIndex + 1 < s.path.length →
      s.attractedToNode = some (s.path.getD (s.currentPathIndex + 1) 0) →
      s.path.getD (s.currentPathIndex + 1) 0 ∈
        (update nodes s dt true movedX movedY).processedHoneypots) :=
  ⟨rerouteToNode_idem d fuel nodes edges s nodeId,
   rerouteToNode_processed_eq d fuel nodes edges s nodeId,
   update_processed_subset nodes s dt movedX movedY reached,
   update_arrival_adds nodes s dt movedX movedY⟩

set_option maxHeartbeats 1000000 in
/-- C8.  Reroute failure: when no path joins the attractor to the goal, or
neither candidate entry node reaches the attractor, the splice is abandoned
by the early-return branches, leaving the existing path and traversal index
untouched. -/
theorem rerouteToNode_failure {d : Pathfinding.Dist} {fuel : ℕ}
    {nodes : List Pathfinding.Point} {edges : List (ℕ × ℕ)}
    {s : EnemyState} {nodeId prev next goalN : ℕ}
    (hprev : s.path.get? s.currentPathIndex = some prev)
    (hnext : s.path.get? (s.currentPathIndex + 1) = some next)
    (hgoal : s.path.getLast? = some goalN)
    (hfail : Pathfinding.findPath d nodes edges nodeId goalN false (fun _ => 0) fuel = some [] ∨
      (Pathfinding.findPath d nodes edges prev nodeId false (fun _ => 0) fuel = some [] ∧
       Pathfinding.findPath d nodes edges next nodeId false (fun _ => 0) fuel = some [])) :
    (rerouteToNode d fuel nodes edges s nodeId).path = s.path ∧
    (rerouteToNode d fuel nodes edges s nodeId).currentPathIndex = s.currentPathIndex := by
  unfold rerouteToNode
  split_ifs with h1 h2 h3 h4 h5 h6 <;> try exact ⟨rfl, rfl⟩
  all_goals dsimp only
  all_goals rw [hprev, hnext, hgoal]
  all_goals dsimp only
  all_goals unfold rerouteSplice
  all_goals
    rcases hfail with hf | ⟨hf1, hf2⟩
  · rw [hf]
    simp only [Option.getD_some]
    rw [if_pos trivial]
    exact ⟨rfl, rfl⟩
  · by_cases hPG : (Pathfinding.findPath d nodes edges nodeId goalN false
        (fun x => 0) fuel).getD [] = []
    · rw [if_pos hPG]
      exact ⟨rfl, rfl⟩
    · rw [if_neg hPG, hf1, hf2]
      rw [if_pos (show ((some ([] : List ℕ)).getD [] = [] ∧
        (some ([] : List ℕ)).getD [] = []) from ⟨rfl, rfl⟩)]
      exact ⟨rfl, rfl⟩
  · rw [hf]
    simp only [Option.getD_some]
    rw [if_pos trivial]
    exact ⟨rfl, rfl⟩
  · by_cases hPG : (Pathfinding.findPath d nodes edges nodeId goalN false
        (fun x => 0) fuel).getD [] = []
    · rw [if_pos hPG]
      exact ⟨rfl, rfl⟩
    · rw [if_neg hPG, hf1, hf2]
      rw [if_pos (show ((some ([] : List ℕ)).getD [] = [] ∧
        (some ([] : List ℕ)).getD [] = []) from ⟨rfl, rfl⟩)]
      exact ⟨rfl, rfl⟩


/-- A concrete agent mid-traversal used by the C7 witness: attractor 3
already visited, attractor 1 currently active and next on the path. -/
def wEnemy : EnemyState :=
  { path := [0, 1, 2], currentPathIndex := 0, x := 0, y := 0, targetX := 100, targetY := 0,
    attractionTimer := 500, attractionX := 100, attractionY := 0, attractedToNode := some 1,
    originalPath := none, processedHoneypots := [3], slowFactor := 1, slowTimer := 0,
    alive := true, reachedGoal := false }

/-- Witness for C7 at the concrete agent, attraction event on node 3 and an
arrival step onto node 1. -/
theorem visited_attractors_monotone_witness :
    3 ∈ wEnemy.processedHoneypots ∧
    rerouteToNode Pathfinding.axisDist 10 Pathfinding.demoNodes Pathfinding.demoEdges wEnemy 3 =
      wEnemy ∧
    (rerouteToNode Pathfinding.axisDist 10 Pathfinding.demoNodes Pathfinding.demoEdges wEnemy
        3).processedHoneypots = wEnemy.processedHoneypots ∧
    3 ∈ (update Pathfinding.demoNodes wEnemy 16 true 0 0).processedHoneypots ∧
    (wEnemy.alive = true ∧ wEnemy.reachedGoal = false ∧
      wEnemy.currentPathIndex + 1 < wEnemy.path.length ∧
      wEnemy.attractedToNode = some (wEnemy.path.getD (wEnemy.currentPathIndex + 1) 0)) ∧
    wEnemy.path.getD (wEnemy.currentPathIndex + 1) 0 ∈
      (update Pathfinding.demoNodes wEnemy 16 true 0 0).processedHoneypots := by
  have hmem : 3 ∈ wEnemy.processedHoneypots := by decide
  have h := visited_attractors_monotone Pathfinding.axisDist 10 Pathfinding.demoNodes
    Pathfinding.demoEdges wEnemy 3 16 0 0 true
  exact ⟨hmem, h.1 hmem, h.2.1, h.2.2.1 3 hmem,
    ⟨by decide, by decide, by decide, by decide⟩,
    h.2.2.2 (by decide) (by decide) (by decide) (by decide)⟩

/-- A concrete agent used by the C8 witness. -/
def wEnemy2 : EnemyState :=
  { path := [0, 1, 2], currentPathIndex := 0, x := 0, y := 0, targetX := 100, targetY := 0,
    attractionTimer := 0, attractionX := 0, attractionY := 0, attractedToNode := none,
    originalPath := none, processedHoneypots := [], slowFactor := 1, slowTimer := 0,
    alive := true, reachedGoal := false }

/-- The demo graph extended with an isolated node 3 (the attractor with no
route to the goal). -/
def demoNodes4 : List Pathfinding.Point := Pathfinding.demoNodes ++ [⟨300, 50⟩]

section EvalSection

attribute [local semireducible] Rat.add Rat.mul Rat.inv Rat.sub Rat.ofScientific

set_option maxHeartbeats 1000000 in
/-- Witness for C8: an attraction event on the isolated node 3 finds no path
from it to the goal, and the agent path and index stay untouched. -/
theorem rerouteToNode_failure_witness :
    wEnemy2.path.get? wEnemy2.currentPathIndex = some 0 ∧
    wEnemy2.path.get? (wEnemy2.currentPathIndex + 1) = some 1 ∧
    wEnemy2.path.getLast? = some 2 ∧
    Pathfinding.findPath Pathfinding.axisDist demoNodes4 Pathfinding.demoEdges 3 2 false
      (fun _ => 0) 10 = some [] ∧
    (rerouteToNode Pathfinding.axisDist 10 demoNodes4 Pathfinding.demoEdges wEnemy2 3).path =
      wEnemy2.path ∧
    (rerouteToNode Pathfinding.axisDist 10 demoNodes4 Pathfinding.demoEdges wEnemy2
        3).currentPathIndex = wEnemy2.currentPathIndex := by
  have hfp : Pathfinding.findPath Pathfinding.axisDist demoNodes4 Pathfinding.demoEdges 3 2 false
      (fun _ => 0) 10 = some [] := by decide
  have h := @rerouteToNode_failure Pathfinding.axisDist 10 demoNodes4 Pathfinding.demoEdges
    wEnemy2 3 0 1 2 (by decide) (by decide) (by decide) (Or.inl hfp)
  exact ⟨by decide, by decide, by decide, hfp, h.1, h.2⟩

end EvalSection

end Enemy

namespace TopologyGen

/- `TopologyGenerator.identifyChokepoints` and `simpleBFS`
   (src/web/js/utils/TopologyGenerator.js, lines 22-95).

   `Math.random()`-driven neighbour shuffling is modelled by an oracle
   `shuf : ℕ → List ℕ → List ℕ` indexed by a running call counter (the seeded
   LCG stream makes each call a pure function of its position in the stream).
   The BFS `while` loop enqueues every node at most once (a node is pushed only
   when first marked visited), so `adj.length + 1` iterations always reach the
   empty-queue/goal exit; the fuel argument makes that bound explicit. -/

/-- Adjacency construction: each edge `[u, v]` pushes `v` onto `adj[u]` and
`u` onto `adj[v]`. -/
def adjBuild (n : ℕ) (edges : List (ℕ × ℕ)) : List (List ℕ) :=
  edges.foldl (fun adj e =>
    let a1 := adj.set e.1 (adj.getD e.1 [] ++ [e.2])
    a1.set e.2 (a1.getD e.2 [] ++ [e.1]))
    (List.replicate n [])

/-- The BFS worklist loop: returns the predecessor map and the advanced
shuffle-counter. -/
def simpleBFSLoop (adj : List (List ℕ)) (goal : ℕ) (randomize : Bool)
    (shuf : ℕ → List ℕ → List ℕ) :
    ℕ → List ℕ → List ℕ → List (ℕ × ℕ) → ℕ → List (ℕ × ℕ) × ℕ
  | 0, _, _, prevM, ctr => (prevM, ctr)
  | fuel + 1, queue, visited, prevM, ctr =>
    match queue with
    | [] => (prevM, ctr)
    | curr :: rest =>
      if curr = goal then (prevM, ctr)
      else
        let base := adj.getD curr []
        let neighbors := if randomize then shuf ctr base else base
        let ctr2 := if randomize then ctr + 1 else ctr
        let st := neighbors.foldl
          (fun (acc : List ℕ × List ℕ × List (ℕ × ℕ)) nb =>
            if acc.2.1.contains nb then acc
            else (acc.1 ++ [nb], nb :: acc.2.1, (nb, curr) :: acc.2.2))
          (rest, visited, prevM)
        simpleBFSLoop adj goal randomize shuf fuel st.1 st.2.1 st.2.2 ctr2

/-- `while (curr !== undefined) { path.unshift(curr); curr = prev.get(curr) }`:
the predecessor map is a forest, so `prevM.length` steps suffice. -/
def bfsReconstruct (prevM : List (ℕ × ℕ)) : ℕ → ℕ → List ℕ → List ℕ
  | 0, curr, acc => curr :: acc
  | fuel + 1, curr, acc =>
    match prevM.lookup curr with
    | none => curr :: acc
    | some p => bfsReconstruct prevM fuel p (curr :: acc)

/-- `TopologyGenerator.simpleBFS`: `none` is JS `null` (goal absent from the
predecessor map). -/
def simpleBFS (adj : List (List ℕ)) (start goal : ℕ) (randomize : Bool)
    (shuf : ℕ → List ℕ → List ℕ) (ctr : ℕ) : Option (List ℕ) × ℕ :=
  let res := simpleBFSLoop adj goal randomize shuf (adj.length + 1) [start] [start] [] ctr
  if (res.1.lookup goal).isSome then
    (some (bfsReconstruct res.1 res.1.length goal []), res.2)
  else (none, res.2)

/-- One sampled path bumps the counter of every interior node. -/
def scorePath (source goal : ℕ) (score : List ℕ) (path : List ℕ) : List ℕ :=
  path.foldl (fun sc nodeId =>
    if nodeId ≠ source ∧ nodeId ≠ goal then sc.set nodeId (sc.getD nodeId 0 + 1) else sc)
    score

/-- One sampling round over every source/goal pair, threading score vector and
shuffle counter. -/
def sampleScores (adj : List (List ℕ)) (sources goals : List ℕ)
    (shuf : ℕ → List ℕ → List ℕ) (st : List ℕ × ℕ) : List ℕ × ℕ :=
  sources.foldl (fun st1 source =>
    goals.foldl (fun st2 goal =>
      let r := simpleBFS adj source goal true shuf st2.2
      match r.1 with
      | none => (st2.1, r.2)
      | some path => (scorePath source goal st2.1 path, r.2)) st1) st

/-- The 50-iteration betweenness sampling of `identifyChokepoints`. -/
def nodeScores (n : ℕ) (edges : List (ℕ × ℕ)) (sources goals : List ℕ)
    (shuf : ℕ → List ℕ → List ℕ) : List ℕ :=
  ((List.range 50).foldl (fun st _ => sampleScores (adjBuild n edges) sources goals shuf st)
    (List.replicate n 0, 0)).1

/-- `TopologyGenerator.identifyChokepoints`.  `Math.max(...nodeScore)` over the
non-negative counters is the left fold of `max` from `0` (for an empty node
list JS gives `-Infinity`, fails the `=== 0` test and filters nothing; both
renderings return `[]`). -/
def identifyChokepoints (n : ℕ) (edges : List (ℕ × ℕ)) (sources goals : List ℕ)
    (shuf : ℕ → List ℕ → List ℕ) : List ℕ :=
  if (nodeScores n edges sources goals shuf).foldl max 0 = 0 then []
  else
    (List.range (nodeScores n edges sources goals shuf).length).filter (fun i =>
      decide (((nodeScores n edges sources goals shuf).getD i 0 : ℚ) /
          (((nodeScores n edges sources goals shuf).foldl max 0 : ℕ) : ℚ) > 0.4 ∧
        3 ≤ ((adjBuild n edges).getD i []).length))

lemma foldl_fst_length {β : Type} (f : List ℕ × ℕ → β → List ℕ × ℕ)
    (h : ∀ st b, ((f st b).1).length = st.1.length) :
    ∀ (l : List β) (st : List ℕ × ℕ), (((l.foldl f st)).1).length = st.1.length := by
  intro l
  induction l with
  | nil => intro st; rfl
  | cons a t ih => intro st; rw [List.foldl_cons, ih, h]

lemma scorePath_length (source goal : ℕ) (path : List ℕ) :
    ∀ score : List ℕ, (scorePath source goal score path).length = score.length := by
  induction path with
  | nil => intro sc; rfl
  | cons a t ih =>
    intro sc
    simp only [scorePath, List.foldl_cons] at ih ⊢
    rw [ih]
    split
    · exact List.length_set sc a _
    · rfl

lemma sampleScores_length (adj : List (List ℕ)) (sources goals : List ℕ)
    (shuf : ℕ → List ℕ → List ℕ) (st : List ℕ × ℕ) :
    ((sampleScores adj sources goals shuf st).1).length = st.1.length := by
  unfold sampleScores
  apply foldl_fst_length
  intro st1 source
  apply foldl_fst_length
  intro st2 goal
  dsimp only
  cases h : (simpleBFS adj source goal true shuf st2.2).1 with
  | none => simp [h]
  | some p => simp [h, scorePath_length]

lemma nodeScores_length (n : ℕ) (edges : List (ℕ × ℕ)) (sources goals : List ℕ)
    (shuf : ℕ → List ℕ → List ℕ) : (nodeScores n edges sources goals shuf).length = n := by
  unfold nodeScores
  rw [foldl_fst_length]
  · exact List.length_replicate n 0
  · intro st b
    exact sampleScores_length (adjBuild n edges) sources goals shuf st

/-- C4.  Chokepoint classification: with the sampling scores fixed by the
shuffle oracle, the classifier is deterministic in that oracle, returns `[]`
whenever the maximum sampled counter is `0`, and otherwise returns exactly the
in-range nodes whose counter normalised by the maximum exceeds `0.4` and whose
degree is at least `3`. -/
theorem identifyChokepoints_spec (n : ℕ) (edges : List (ℕ × ℕ))
    (sources goals : List ℕ) (shuf : ℕ → List ℕ → List ℕ) :
    ((nodeScores n edges sources goals shuf).foldl max 0 = 0 →
      identifyChokepoints n edges sources goals shuf = []) ∧
    (∀ i, i ∈ identifyChokepoints n edges sources goals shuf ↔
      (nodeScores n edges sources goals shuf).foldl max 0 ≠ 0 ∧ i < n ∧
      ((nodeScores n edges sources goals shuf).getD i 0 : ℚ) /
        (((nodeScores n edges sources goals shuf).foldl max 0 : ℕ) : ℚ) > 0.4 ∧
      3 ≤ ((adjBuild n edges).getD i []).length) ∧
    (∀ shuf2 : ℕ → List ℕ → List ℕ, (∀ k l, shuf k l = shuf2 k l) →
      identifyChokepoints n edges sources goals shuf =
        identifyChokepoints n edges sources goals shuf2) := by
  refine ⟨?_, ?_, ?_⟩
  · intro h
    rw [identifyChokepoints, if_pos h]
  · intro i
    by_cases hm : (nodeScores n edges sources goals shuf).foldl max 0 = 0
    · rw [identifyChokepoints, if_pos hm]
      simp [hm]
    · rw [identifyChokepoints, if_neg hm]
      simp only [List.mem_filter, List.mem_range, decide_eq_true_eq,
        nodeScores_length]
      constructor
      · rintro ⟨hi, h1, h2⟩
        exact ⟨hm, hi, h1, h2⟩
      · rintro ⟨_, hi, h1, h2⟩
        exact ⟨hi, h1, h2⟩
  · intro shuf2 h
    have hfun : shuf = shuf2 := funext fun k => funext fun l => h k l
    rw [hfun]

section EvalSection

attribute [local semireducible] Rat.add Rat.mul Rat.inv Rat.sub Rat.ofScientific

set_option maxRecDepth 10000 in
/-- Witness for C4 on the diamond-with-tail graph `0-1, 0-2, 1-3, 2-3, 3-4`
with the identity shuffle: node `3` lies on every sampled path and has degree
`3`, so it is classified as a chokepoint. -/
theorem identifyChokepoints_spec_witness :
    3 ∈ identifyChokepoints 5 [(0, 1), (0, 2), (1, 3), (2, 3), (3, 4)] [0] [4]
      (fun _ l => l) :=
  ((identifyChokepoints_spec 5 [(0, 1), (0, 2), (1, 3), (2, 3), (3, 4)] [0] [4]
      (fun _ l => l)).2.1 3).2 (by decide)

end EvalSection

/-- A topology node record `{ id, x, y, type }` (positions floored to ints). -/
structure TopoNode where
  id : ℕ
  x : ℤ
  y : ℤ
  type : String
deriving DecidableEq

/-- The post-analysis reclassification loop of `generateStackelbergMap`
(lines 223-229): analyzer hits become `'chokepoint'`, remaining
generation-time `'chokepoint'` hints are reset to `'normal'`. -/
def stackelbergFinalize (identified : List ℕ) : ℕ → List TopoNode → List TopoNode
  | _, [] => []
  | i, node :: rest =>
    (if identified.contains i then { node with type := "chokepoint" }
     else if node.type = "chokepoint" then { node with type := "normal" }
     else node) :: stackelbergFinalize identified (i + 1) rest

/-- The post-analysis reclassification loop of `generateRLTopology`
(lines 375-379): analyzer hits become `'chokepoint'`; there is no `else`
branch, so other nodes keep their generation-time type. -/
def rlFinalize (identified : List ℕ) : ℕ → List TopoNode → List TopoNode
  | _, [] => []
  | i, node :: rest =>
    (if identified.contains i then { node with type := "chokepoint" } else node) ::
      rlFinalize identified (i + 1) rest

/-- Accumulator for the grid-layer generation of `generateRLTopology`:
the node list, the generation-time chokepoint hints, the per-layer index
lists, the next node id, and the position in the `Math.random()` stream. -/
structure GenAcc where
  nodes : List TopoNode
  chokepoints : List ℕ
  layerIndices : List (List ℕ)
  currentIndex : ℕ
  k : ℕ
deriving DecidableEq

/-- Grid-layer generation of `generateRLTopology` (width 1200, height 700,
margins 100, usable height 500).  Each node consumes three `Math.random()`
values: y-jitter, x-jitter and the type roll. -/
def rlMakeLayers (ty : String) (numLayers nodesPerLayer : ℕ)
    (randomness layerWidth : ℚ) (rand : ℕ → ℚ) : GenAcc :=
  (List.range numLayers).foldl (fun acc i0 =>
    let i : ℕ := i0 + 1
    let layerX : ℚ := 100 + (i : ℚ) * layerWidth
    let count := if ty = "EVASIVE" ∧ i % 2 = 0 then nodesPerLayer + 1 else nodesPerLayer
    let spacing : ℚ := 500 / (count + 1)
    let res := (List.range count).foldl (fun (acc2 : GenAcc × List ℕ) j =>
      let a := acc2.1
      let y0 : ℚ := 100 + ((j : ℚ) + 1) * spacing
      let y1 := if ty = "SPREAD" ∧ j = 0 then (150 : ℚ) else y0
      let y2 := if ty = "SPREAD" ∧ j = count - 1 then (550 : ℚ) else y1
      let y3 := y2 + (rand a.k - 1/2) * 100 * randomness
      let x := layerX + (rand (a.k + 1) - 1/2) * 60 * randomness
      let y4 := max 50 (min 650 y3)
      let nodeType := if rand (a.k + 2) < 0.3 ∨ (ty = "BALANCED" ∧ j = 0)
        then "chokepoint" else "normal"
      (⟨a.nodes ++ [⟨a.currentIndex, ⌊x⌋, ⌊y4⌋, nodeType⟩],
        if nodeType = "chokepoint" then a.chokepoints ++ [a.currentIndex] else a.chokepoints,
        a.layerIndices, a.currentIndex + 1, a.k + 3⟩,
       acc2.2 ++ [a.currentIndex]))
      (acc, ([] : List ℕ))
    ⟨res.1.nodes, res.1.chokepoints, res.1.layerIndices ++ [res.2], res.1.currentIndex,
      res.1.k⟩)
    ⟨[⟨0, 100, 350, "source"⟩], [], [], 1, 0⟩

/-- Inter-layer edge generation: `DIRECT` is a complete bipartite join and
consumes no randomness; otherwise each node picks one (sometimes two) random
targets in the next layer, and next-layer nodes without any incoming edge are
then given a random source.  `Math.floor(Math.random() * len)` indexing is
rendered with the oracle value in `[0, 1)`. -/
def rlLayerEdges (ty : String) (layerIndices : List (List ℕ)) (rand : ℕ → ℚ)
    (st0 : List (ℕ × ℕ) × ℕ) : List (ℕ × ℕ) × ℕ :=
  (List.range (layerIndices.length - 1)).foldl (fun (st : List (ℕ × ℕ) × ℕ) i =>
    let current := layerIndices.getD i []
    let next := layerIndices.getD (i + 1) []
    if ty = "DIRECT" then
      (current.foldl (fun l u => l ++ next.map (fun v => (u, v))) st.1, st.2)
    else
      let st1 := current.foldl (fun (st2 : List (ℕ × ℕ) × ℕ) u =>
        let target := next.getD (⌊rand st2.2 * (next.length : ℚ)⌋).toNat 0
        let es := st2.1 ++ [(u, target)]
        if rand (st2.2 + 1) < 0.5 then
          let target2 := next.getD (⌊rand (st2.2 + 2) * (next.length : ℚ)⌋).toNat 0
          if target ≠ target2 then (es ++ [(u, target2)], st2.2 + 3)
          else (es, st2.2 + 3)
        else (es, st2.2 + 2)) st
      next.foldl (fun (st2 : List (ℕ × ℕ) × ℕ) v =>
        if st2.1.any (fun e => e.2 = v) then st2
        else
          (st2.1 ++ [(current.getD (⌊rand st2.2 * (current.length : ℚ)⌋).toNat 0, v)],
            st2.2 + 1)) st1)
    st0

/-- Intra-layer cross connections for the non-`DIRECT`, non-`SPREAD` types:
each adjacent pair in a multi-node layer is joined with probability `0.3`. -/
def rlCross (ty : String) (layerIndices : List (List ℕ)) (rand : ℕ → ℚ)
    (st0 : List (ℕ × ℕ) × ℕ) : List (ℕ × ℕ) × ℕ :=
  if ty ≠ "DIRECT" ∧ ty ≠ "SPREAD" then
    layerIndices.foldl (fun st layer =>
      if 1 < layer.length then
        (List.range (layer.length - 1)).foldl (fun (st2 : List (ℕ × ℕ) × ℕ) kk =>
          if rand st2.2 < 0.3 then
            (st2.1 ++ [(layer.getD kk 0, layer.getD (kk + 1) 0)], st2.2 + 1)
          else (st2.1, st2.2 + 1)) st
      else st) st0
  else st0

/-- `TopologyGenerator.getReasoning`. -/
def getReasoning (topoType strategy : String) : String :=
  if topoType = "DIRECT" then "Detected weakness to speed. Rushing core with direct paths."
  else if topoType = "SPREAD" then
    "Firewall concentration detected. Spreading nodes to minimize AOE impact."
  else if topoType = "EVASIVE" then
    "IDS heavy defense detected. Using evasive routing to delay detection."
  else "Balanced approach for general testing."

/-- The record returned by `generateRLTopology`. -/
structure RLResult where
  name : String
  nodes : List TopoNode
  edges : List (ℕ × ℕ)
  sources : List ℕ
  goals : List ℕ
  chokepoints : List ℕ
  aiReasoning : String
deriving DecidableEq

/-- `TopologyGenerator.generateRLTopology`, with the `Math.random()` stream as
the oracle `rand` (indexed by call position) and the analyzer's
comparator-shuffles as `shuf`. -/
def generateRLTopology (ty currentAction strategy : String) (rand : ℕ → ℚ)
    (shuf : ℕ → List ℕ → List ℕ) : RLResult :=
  let cfg : ℕ × ℕ × ℚ :=
    if ty = "DIRECT" then (3, 2, 0.1)
    else if ty = "EVASIVE" then (5, 3, 0.4)
    else if ty = "SPREAD" then (4, 2, 0.8)
    else (4, 2, 0.3)
  let layerWidth : ℚ := 750 / ((cfg.1 : ℚ) + 1)
  let acc := rlMakeLayers ty cfg.1 cfg.2.1 cfg.2.2 layerWidth rand
  let goalIndex := acc.currentIndex
  let nodes := acc.nodes ++ [⟨goalIndex, 850, 350, "goal"⟩]
  let e0 := (acc.layerIndices.getD 0 []).map (fun idx => ((0 : ℕ), idx))
  let st1 := rlLayerEdges ty acc.layerIndices rand (e0, acc.k)
  let st2 : List (ℕ × ℕ) × ℕ :=
    (st1.1 ++ (acc.layerIndices.getD (acc.layerIndices.length - 1) []).map
      (fun idx => (idx, goalIndex)), st1.2)
  let st3 := rlCross ty acc.layerIndices rand st2
  let identified := identifyChokepoints nodes.length st3.1 [0] [goalIndex] shuf
  ⟨"Smart " ++ ty ++ " (" ++ currentAction ++ ")", rlFinalize identified 0 nodes, st3.1,
    [0], [goalIndex], identified, getReasoning ty strategy⟩

lemma stackelbergFinalize_get (identified : List ℕ) (nodes : List TopoNode) :
    ∀ i0 i, (stackelbergFinalize identified i0 nodes).get? i =
      (nodes.get? i).map (fun node =>
        if identified.contains (i0 + i) then { node with type := "chokepoint" }
        else if node.type = "chokepoint" then { node with type := "normal" }
        else node) := by
  induction nodes with
  | nil => intro i0 i; rfl
  | cons a t ih =>
    intro i0 i
    cases i with
    | zero => simp [stackelbergFinalize]
    | succ m =>
      simp only [stackelbergFinalize, List.get?_cons_succ]
      rw [ih (i0 + 1) m]
      have he : i0 + 1 + m = i0 + (m + 1) := by omega
      rw [he]

lemma rlFinalize_get (identified : List ℕ) (nodes : List TopoNode) :
    ∀ i0 i, (rlFinalize identified i0 nodes).get? i =
      (nodes.get? i).map (fun node =>
        if identified.contains (i0 + i) then { node with type := "chokepoint" }
        else node) := by
  induction nodes with
  | nil => intro i0 i; rfl
  | cons a t ih =>
    intro i0 i
    cases i with
    | zero => simp [rlFinalize]
    | succ m =>
      simp only [rlFinalize, List.get?_cons_succ]
      rw [ih (i0 + 1) m]
      have he : i0 + 1 + m = i0 + (m + 1) := by omega
      rw [he]

/-- C9.  Post-hoc classification, as the two cited reclassification loops
actually behave: the Stackelberg loop discards generation-time hints (a final
`'chokepoint'` type is exactly analyzer membership), while the RL loop only
upgrades analyzer hits, so a final `'chokepoint'` type is either analyzer
membership or a surviving generation-time hint. -/
theorem postHocClassification :
    (∀ (identified : List ℕ) (nodes : List TopoNode) (i : ℕ) (node : TopoNode),
      (stackelbergFinalize identified 0 nodes).get? i = some node →
      (node.type = "chokepoint" ↔ identified.contains i = true)) ∧
    (∀ (identified : List ℕ) (nodes : List TopoNode) (i : ℕ) (node : TopoNode),
      (rlFinalize identified 0 nodes).get? i = some node →
      ((identified.contains i = true → node.type = "chokepoint") ∧
       (node.type = "chokepoint" →
         identified.contains i = true ∨
         ∃ orig, nodes.get? i = some orig ∧ orig.type = "chokepoint"))) := by
  constructor
  · intro identified nodes i node h
    rw [stackelbergFinalize_get identified nodes 0 i] at h
    cases horig : nodes.get? i with
    | none => rw [horig] at h; exact absurd h (by simp)
    | some orig =>
      rw [horig] at h
      replace h := Option.some.inj h
      dsimp only at h
      rw [Nat.zero_add] at h
      by_cases hc : identified.contains i
      · rw [if_pos hc] at h
        subst h
        simpa using hc
      · rw [if_neg hc] at h
        by_cases ht : orig.type = "chokepoint"
        · rw [if_pos ht] at h
          subst h
          constructor
          · intro hx; exact absurd hx (by simp)
          · intro hx; exact absurd hx hc
        · rw [if_neg ht] at h
          subst h
          constructor
          · intro hx; exact absurd hx ht
          · intro hx; exact absurd hx hc
  · intro identified nodes i node h
    rw [rlFinalize_get identified nodes 0 i] at h
    cases horig : nodes.get? i with
    | none => rw [horig] at h; exact absurd h (by simp)
    | some orig =>
      rw [horig] at h
      replace h := Option.some.inj h
      dsimp only at h
      rw [Nat.zero_add] at h
      by_cases hc : identified.contains i
      · rw [if_pos hc] at h
        subst h
        exact ⟨fun _ => rfl, fun _ => Or.inl hc⟩
      · rw [if_neg hc] at h
        subst h
        exact ⟨fun hx => absurd hx hc, fun hx => Or.inr ⟨orig, rfl, hx⟩⟩

/-- Three nodes with a generation-time `'chokepoint'` hint on node `1`;
the analyzer set used by the witness is `[2]`. -/
def wNodes : List TopoNode :=
  [⟨0, 0, 0, "source"⟩, ⟨1, 0, 0, "chokepoint"⟩, ⟨2, 0, 0, "normal"⟩]

/-- Witness for C9: on `wNodes` with analyzer set `[2]`, the Stackelberg loop
resets the hint on node `1`, so its final type satisfies the classification
iff (both sides false). -/
theorem postHocClassification_witness :
    ((⟨1, 0, 0, "normal"⟩ : TopoNode).type = "chokepoint" ↔ [2].contains 1 = true) :=
  postHocClassification.1 [2] wNodes 1 ⟨1, 0, 0, "normal"⟩ (by decide)

section EvalSection

attribute [local semireducible] Rat.add Rat.mul Rat.inv Rat.sub Rat.ofScientific

set_option maxRecDepth 10000 in
/-- Counterexample for C9 on the RL generator: a full `BALANCED` run with the
constant random stream `9/10` and the identity shuffle.  Node `1` keeps its
generation-time `'chokepoint'` type, yet the analyzer (and the returned
chokepoint list) is exactly `[4, 6, 8]`: final kinds are not derived purely
post-hoc by this generator. -/
theorem generateRLTopology_hint_not_discarded :
    ((generateRLTopology "BALANCED" "hold" "balanced" (fun _ => 9/10)
        (fun _ l => l)).nodes.get? 1).map TopoNode.type = some "chokepoint" ∧
    ((generateRLTopology "BALANCED" "hold" "balanced" (fun _ => 9/10)
        (fun _ l => l)).chokepoints.contains 1) = false ∧
    (generateRLTopology "BALANCED" "hold" "balanced" (fun _ => 9/10)
        (fun _ l => l)).chokepoints = [4, 6, 8] := by
  decide

end EvalSection

end TopologyGen

namespace EconomicRL

/- `EconomicRL.selectAction`, `getBestAction` and `updateQTable`
   (src/unnamed/part_001, lines 317-413).

   The Q-table `this.Q` is an object of objects, rendered as an association
   list from state keys to action/value rows.  `Math.random()` is the oracle
   `rand` indexed by call position; the ε-greedy coin and the random action
   index of the exploration branch consume the first two positions.
   `updateQTable` reads `this.Q[currentState][currentAction]` and
   `this.Q[nextState][a]` without any initialization: when the state row is
   absent the JS property access on `undefined` throws a TypeError, rendered
   as `none`. -/

abbrev QTable := List (String × List (String × ℚ))

/-- `this.actions` (line 265). -/
def actions : List String := ["AGGRESSIVE", "BALANCED", "DEFENSIVE"]

/-- JS `qValues[action] > bestValue` where either side may be `undefined`
(comparisons against `undefined` are false). -/
def jsGt (a b : Option ℚ) : Bool :=
  match a, b with
  | some x, some y => decide (y < x)
  | _, _ => false

/-- `EconomicRL.getBestAction`: lazily initializes a missing state row with
`Math.random() * 2` optimistic values (one stream position per action), then
scans the actions for the best Q-value, starting from `actions[0]`.  Returns
the (possibly extended) table, the chosen action and the advanced stream
position. -/
def getBestAction (Q : QTable) (state : String) (rand : ℕ → ℚ) (k : ℕ) :
    QTable × String × ℕ :=
  let init :=
    match Q.lookup state with
    | some _ => (Q, k)
    | none => (Q ++ [(state, actions.enum.map (fun (p : ℕ × String) => (p.2, 2 * rand (k + p.1))))],
        k + actions.length)
  let qValues := (init.1.lookup state).getD []
  let best := actions.foldl (fun (acc : String × Option ℚ) action =>
    if jsGt (qValues.lookup action) acc.2 then (action, qValues.lookup action) else acc)
    (actions.headD "", qValues.lookup (actions.headD ""))
  (init.1, best.1, init.2)

/-- `EconomicRL.selectAction`: with probability ε pick a uniformly random
action — leaving the Q-table untouched — otherwise exploit via
`getBestAction`. -/
def selectAction (Q : QTable) (state : String) (epsilon : ℚ) (rand : ℕ → ℚ)
    (k : ℕ) : QTable × String × ℕ :=
  if rand k < epsilon then
    (Q, actions.getD (⌊rand (k + 1) * (actions.length : ℚ)⌋).toNat "", k + 2)
  else getBestAction Q state rand (k + 1)

/-- `EconomicRL.updateQTable` after its null guard, as a partial function of
the table: `none` is the TypeError thrown when `this.Q[currentState]` or
`this.Q[nextState]` is `undefined`.  Rows built by the initializer carry every
action, so the `getD 0` defaults inside a present row are never exercised on
tables produced by this module. -/
def updateQTable (Q : QTable) (currentState currentAction : Option String)
    (reward : ℚ) (nextState : String) (alpha gamma : ℚ) : Option QTable :=
  match currentState, currentAction with
  | some cs, some ca =>
    match Q.lookup cs, Q.lookup nextState with
    | some qs, some qn =>
      let currentQ := (qs.lookup ca).getD 0
      let nextVals := actions.map (fun a => (qn.lookup a).getD 0)
      let maxNextQ := nextVals.foldl max (nextVals.headD 0)
      let newQ := currentQ + alpha * (reward + gamma * maxNextQ - currentQ)
      let row2 := if (qs.lookup ca).isSome
        then qs.map (fun q => if q.1 = ca then (q.1, newQ) else q)
        else qs ++ [(ca, newQ)]
      some (Q.map (fun p => if p.1 = cs then (p.1, row2) else p))
    | _, _ => none
  | _, _ => none

lemma lookup_append_of_none {α β : Type} [BEq α] (l1 l2 : List (α × β)) (a : α)
    (h : l1.lookup a = none) : (l1 ++ l2).lookup a = l2.lookup a := by
  induction l1 with
  | nil => rfl
  | cons p t ih =>
    cases hbe : (a == p.1) with
    | true => simp [List.lookup, hbe] at h
    | false =>
      simp only [List.lookup, hbe] at h
      simp only [List.cons_append, List.lookup, hbe]
      exact ih h

/-- C6.  Lazy-initialization safety, as the code actually scopes it: the
exploit path (`getBestAction`) initializes a missing state row with an entry
for every action and leaves present rows untouched, but the exploration
branch of `selectAction` returns without touching the table, and
`updateQTable` succeeds exactly when both the current state's row and the
next state's row are already present — an unseen state reaching it makes the
read fail. -/
theorem lazyInit_safety :
    (∀ (Q : QTable) (state : String) (rand : ℕ → ℚ) (k : ℕ),
      (Q.lookup state = none →
        ((getBestAction Q state rand k).1.lookup state =
            some (actions.enum.map (fun (p : ℕ × String) => (p.2, 2 * rand (k + p.1)))) ∧
          ∀ a ∈ actions,
            ((actions.enum.map (fun (p : ℕ × String) => (p.2, 2 * rand (k + p.1)))).lookup a).isSome)) ∧
      (∀ row, Q.lookup state = some row → (getBestAction Q state rand k).1 = Q)) ∧
    (∀ (Q : QTable) (state : String) (epsilon : ℚ) (rand : ℕ → ℚ) (k : ℕ),
      rand k < epsilon → (selectAction Q state epsilon rand k).1 = Q) ∧
    (∀ (Q : QTable) (cs ca : String) (reward : ℚ) (ns : String) (alpha gamma : ℚ),
      (updateQTable Q (some cs) (some ca) reward ns alpha gamma).isSome ↔
        ((Q.lookup cs).isSome ∧ (Q.lookup ns).isSome)) := by
  refine ⟨?_, ?_, ?_⟩
  · intro Q state rand k
    constructor
    · intro h
      constructor
      · show ((match Q.lookup state with
          | some _ => (Q, k)
          | none => (Q ++ [(state, actions.enum.map (fun (p : ℕ × String) => (p.2, 2 * rand (k + p.1))))],
              k + actions.length)).1).lookup state = _
        rw [h]
        dsimp only
        rw [lookup_append_of_none Q _ state h]
        simp [List.lookup]
      · intro a ha
        fin_cases ha <;> rfl
    · intro row h
      show (match Q.lookup state with
        | some _ => (Q, k)
        | none => (Q ++ [(state, actions.enum.map (fun (p : ℕ × String) => (p.2, 2 * rand (k + p.1))))],
            k + actions.length)).1 = Q
      rw [h]
  · intro Q state epsilon rand k h
    rw [selectAction, if_pos h]
  · intro Q cs ca reward ns alpha gamma
    cases hcs : Q.lookup cs with
    | none => simp [updateQTable, hcs]
    | some qs =>
      cases hns : Q.lookup ns with
      | none => simp [updateQTable, hcs, hns]
      | some qn => simp [updateQTable, hcs, hns]

section EvalSection

attribute [local semireducible] Rat.add Rat.mul Rat.inv Rat.sub Rat.ofScientific

/-- Witness for C6: exploring (coin `0 < 0.3`) leaves a one-row table
unchanged, and on the empty table `updateQTable` succeeds iff both row
lookups succeed (both sides false). -/
theorem lazyInit_safety_witness :
    (selectAction [("s", [("AGGRESSIVE", 1)])] "s" (3/10) (fun _ => 0) 0).1
      = [("s", [("AGGRESSIVE", 1)])] ∧
    ((updateQTable [] (some "s") (some "AGGRESSIVE") 1 "s" (1/10) (9/10)).isSome ↔
      ((([] : QTable).lookup "s").isSome ∧ (([] : QTable).lookup "s").isSome)) :=
  ⟨lazyInit_safety.2.1 [("s", [("AGGRESSIVE", 1)])] "s" (3/10) (fun _ => 0) 0 (by decide),
   lazyInit_safety.2.2 [] "s" "AGGRESSIVE" 1 "s" (1/10) (9/10)⟩

/-- Counterexample for C6: on a fresh (empty) Q-table, an exploration draw
(constant random stream `0`: coin `0 < 0.3`, action index `0`) selects
`AGGRESSIVE` without initializing the state, and the subsequent
`updateQTable` for that state reads a missing row — the TypeError case
`none` — even though the next state equals the current one. -/
theorem updateQTable_unseen_state_fails :
    (selectAction [] "LOW_SPARSE_BALANCED_ATTACKER_STRONG" (3/10) (fun _ => 0) 0).1
      = [] ∧
    (selectAction [] "LOW_SPARSE_BALANCED_ATTACKER_STRONG" (3/10) (fun _ => 0) 0).2.1
      = "AGGRESSIVE" ∧
    updateQTable [] (some "LOW_SPARSE_BALANCED_ATTACKER_STRONG") (some "AGGRESSIVE") 1
      "LOW_SPARSE_BALANCED_ATTACKER_STRONG" (1/10) (9/10) = none := by
  decide

end EvalSection

end EconomicRL
